import Mathlib

set_option maxRecDepth 8000

/-!
Verification of the Enigma cipher engine (`enigma_rs`).

Shallow embedding of the Rust sources `src/utils.rs`, `src/rotor.rs`,
`src/plugboard.rs`, `src/reflector.rs` and `src/machine.rs`:

* `char` is Lean's `Char` (`is_ascii_alphabetic` = `Char.isAlpha`,
  `to_ascii_uppercase` = `Char.toUpper`: both agree with the Rust
  functions on every code point);
* Rust strings are `List Char`; `split_whitespace` output is modelled as a
  `List (List Char)` of tokens;
* the fixed 26-entry arrays `[usize; 26]` are total functions `Nat → Nat`
  (resp. `Nat → Option Nat`) updated with `Function.update`, exactly the
  reads/writes the source performs;
* `Result<T, String>` is `Except String T`;
* the `i32` offset arithmetic of `Rotor::forward`/`backward` adds `+ 26`
  before the subtraction, so for ring settings and positions `< 26` the
  value never goes negative; the embedding uses `Nat` arithmetic with the
  `+ 26` placed before the subtraction, which computes the same value;
* `&mut self` methods are state-passing functions returning the new state.
-/

namespace Enigma

/-- From `utils.rs`: `letter_to_index` — `Some(index)` for ASCII alphabetic
input (case-insensitively mapped to 0..25), `None` otherwise. -/
def letter_to_index (letter : Char) : Option Nat :=
  if letter.isAlpha then some (letter.toUpper.toNat - 65) else none

/-- From `utils.rs`: `index_to_letter` — the uppercase letter for an index
in 0..25, `None` otherwise. -/
def index_to_letter (index : Nat) : Option Char :=
  if index < 26 then some (Char.ofNat (65 + index)) else none

/-- From `utils.rs`: `clean_text` — keep only ASCII alphabetic characters
and uppercase them. -/
def clean_text (text : List Char) : List Char :=
  (text.filter fun c => c.isAlpha).map Char.toUpper

/-- From `rotor.rs`: the `Rotor` struct.  The two wiring arrays are
modelled as total functions on `Nat`; the source only ever reads them at
indices reduced `% 26`. -/
structure Rotor where
  wiring : Nat → Nat
  reverse_wiring : Nat → Nat
  ring_setting : Nat
  position : Nat
  notch : Nat
  name : String

instance : Inhabited Rotor :=
  ⟨⟨fun i => i, fun i => i, 0, 0, 0, "default"⟩⟩

/-- From `rotor.rs`, the construction loop of `Rotor::new`:
`for (i, ch) in wiring.chars().enumerate()` sets `wiring_array[i] = target`
and `reverse_wiring[target] = i`, failing on a non-alphabetic character.
`i` is the index of the head of the remaining list. -/
def build_tables : List Char → Nat → (Nat → Nat) → (Nat → Nat) →
    Except String ((Nat → Nat) × (Nat → Nat))
  | [], _, w, rev => .ok (w, rev)
  | ch :: rest, i, w, rev =>
    match letter_to_index ch with
    | none => .error "Ungueltiges Zeichen in Verdrahtung"
    | some target =>
        build_tables rest (i + 1) (Function.update w i target)
          (Function.update rev target i)

/-- From `rotor.rs`: `Rotor::new`.  Checks, in source order: wiring length
26; `ring_setting`/`position` in 0..25; valid notch letter; every wiring
character alphabetic (while building both tables).  NOTE: bijectivity of
the wiring is *not* checked. -/
def Rotor.new (wiring : List Char) (notch : Char) (name : String)
    (ring_setting position : Nat) : Except String Rotor :=
  if wiring.length ≠ 26 then
    .error "Verdrahtung muss genau 26 Zeichen lang sein"
  else if 26 ≤ ring_setting ∨ 26 ≤ position then
    .error "Ringstellung und Position muessen zwischen 0 und 25 liegen"
  else
    match letter_to_index notch with
    | none => .error "Ungueltiger Kerbenbuchstabe"
    | some notch_index =>
        match build_tables wiring 0 (fun _ => 0) (fun _ => 0) with
        | .error e => .error e
        | .ok (wiring_array, reverse_wiring) =>
            .ok ⟨wiring_array, reverse_wiring, ring_setting, position,
              notch_index, name⟩

/-- From `rotor.rs`: `Rotor::forward`.  The source computes
`((input_index + position - ring_setting + 26) % 26)` in `i32`; with
`position`/`ring_setting < 26` this equals the `Nat` expression used here
(`+ 26` moved before the subtraction). -/
def Rotor.forward (r : Rotor) (input : Char) : Char :=
  let input_index := (letter_to_index input).getD 0
  let adjusted_input := (input_index + r.position + 26 - r.ring_setting) % 26
  let output_index := (r.wiring adjusted_input + r.ring_setting + 26 - r.position) % 26
  (index_to_letter output_index).getD 'A'

/-- From `rotor.rs`: `Rotor::backward` — same offset algebra with the
reverse table. -/
def Rotor.backward (r : Rotor) (input : Char) : Char :=
  let input_index := (letter_to_index input).getD 0
  let adjusted_input := (input_index + r.position + 26 - r.ring_setting) % 26
  let output_index := (r.reverse_wiring adjusted_input + r.ring_setting + 26 - r.position) % 26
  (index_to_letter output_index).getD 'A'

/-- From `rotor.rs`: `Rotor::step` — report whether the position was at the
notch, then advance the position by one modulo 26. -/
def Rotor.step (r : Rotor) : Bool × Rotor :=
  (r.position = r.notch, { r with position := (r.position + 1) % 26 })

/-- From `rotor.rs`: `Rotor::set_position` — silently ignored outside 0..25. -/
def Rotor.set_position (r : Rotor) (position : Nat) : Rotor :=
  if position < 26 then { r with position := position } else r

/-- From `rotor.rs`: `Rotor::set_ring_setting` — silently ignored outside 0..25. -/
def Rotor.set_ring_setting (r : Rotor) (ring_setting : Nat) : Rotor :=
  if ring_setting < 26 then { r with ring_setting := ring_setting } else r

/-- From `rotor.rs`: `Rotor::get_position_char`. -/
def Rotor.get_position_char (r : Rotor) : Char :=
  (index_to_letter r.position).getD 'A'

/-- From `rotor.rs`: `Rotor::get_ring_setting_char`. -/
def Rotor.get_ring_setting_char (r : Rotor) : Char :=
  (index_to_letter r.ring_setting).getD 'A'

/-- Wiring of historical rotor I (`rotor.rs`). -/
def wiring_I : List Char := "EKMFLGDQVZNTOWYHXUSPAIBRCJ".toList

/-- Wiring of historical rotor II (`rotor.rs`). -/
def wiring_II : List Char := "AJDKSIRUXBLHWTMCQGZNPYFVOE".toList

/-- Wiring of historical rotor III (`rotor.rs`). -/
def wiring_III : List Char := "BDFHJLCPRTXVZNYEIWGAKMUSQO".toList

/-- Wiring of historical rotor IV (`rotor.rs`). -/
def wiring_IV : List Char := "ESOVPZJAYQUIRHXLNFTGKDCMWB".toList

/-- Wiring of historical rotor V (`rotor.rs`). -/
def wiring_V : List Char := "VZBRGITYUPSDNHLXAWMJQOFECK".toList

/-- From `rotor.rs`: `rotors::rotor_i`. -/
def rotor_i (ring_setting position : Nat) : Except String Rotor :=
  Rotor.new wiring_I 'Q' "I" ring_setting position

/-- From `rotor.rs`: `rotors::rotor_ii`. -/
def rotor_ii (ring_setting position : Nat) : Except String Rotor :=
  Rotor.new wiring_II 'E' "II" ring_setting position

/-- From `rotor.rs`: `rotors::rotor_iii`. -/
def rotor_iii (ring_setting position : Nat) : Except String Rotor :=
  Rotor.new wiring_III 'V' "III" ring_setting position

/-- From `rotor.rs`: `rotors::rotor_iv`. -/
def rotor_iv (ring_setting position : Nat) : Except String Rotor :=
  Rotor.new wiring_IV 'J' "IV" ring_setting position

/-- From `rotor.rs`: `rotors::rotor_v`. -/
def rotor_v (ring_setting position : Nat) : Except String Rotor :=
  Rotor.new wiring_V 'Z' "V" ring_setting position

/-- From `plugboard.rs`: the `Plugboard` struct; `connections` is the
26-slot array of optional partner indices. -/
structure Plugboard where
  connections : Nat → Option Nat
  connection_count : Nat

instance : Inhabited Plugboard := ⟨⟨fun _ => none, 0⟩⟩

/-- From `plugboard.rs`: `Plugboard::new` — the empty board. -/
def Plugboard.new : Plugboard := ⟨fun _ => none, 0⟩

/-- From `plugboard.rs`: `Plugboard::add_connection`.  Fails if the two
characters are equal, either is not alphabetic, or either letter already
has a partner; otherwise stores the mirrored pair. -/
def Plugboard.add_connection (pb : Plugboard) (first second : Char) :
    Except String Plugboard :=
  if first = second then
    .error "Ein Buchstabe kann nicht mit sich selbst verbunden werden"
  else
    match letter_to_index first with
    | none => .error "Ungueltiger Buchstabe"
    | some first_index =>
      match letter_to_index second with
      | none => .error "Ungueltiger Buchstabe"
      | some second_index =>
        if (pb.connections first_index).isSome then
          .error "Buchstabe ist bereits verbunden"
        else if (pb.connections second_index).isSome then
          .error "Buchstabe ist bereits verbunden"
        else
          .ok ⟨Function.update (Function.update pb.connections first_index
                (some second_index)) second_index (some first_index),
            pb.connection_count + 1⟩

/-- From `plugboard.rs`: `Plugboard::remove_connection`. -/
def Plugboard.remove_connection (pb : Plugboard) (first : Char) :
    Except String Plugboard :=
  match letter_to_index first with
  | none => .error "Ungueltiger Buchstabe"
  | some first_index =>
    match pb.connections first_index with
    | some second_index =>
        .ok ⟨Function.update (Function.update pb.connections first_index none)
              second_index none,
          pb.connection_count - 1⟩
    | none => .error "Keine Verbindung gefunden"

/-- From `plugboard.rs`: the loop body of `Plugboard::from_string`: each
whitespace-separated token must be exactly two alphabetic characters and is
fed to `add_connection`. -/
def Plugboard.from_string_loop (pb : Plugboard) :
    List (List Char) → Except String Plugboard
  | [] => .ok pb
  | tok :: rest =>
    match tok with
    | [first, second] =>
      if ¬ first.isAlpha ∨ ¬ second.isAlpha then
        .error "Verbindung darf nur Buchstaben enthalten"
      else
        match pb.add_connection first second with
        | .error e => .error e
        | .ok pb' => Plugboard.from_string_loop pb' rest
    | _ => .error "Verbindung muss genau 2 Zeichen lang sein"

/-- From `plugboard.rs`: `Plugboard::from_string`, with the input already
split into whitespace-separated tokens (an empty or all-whitespace input is
the empty token list and yields the empty board, as in the source). -/
def Plugboard.from_string (tokens : List (List Char)) : Except String Plugboard :=
  Plugboard.from_string_loop Plugboard.new tokens

/-- From `plugboard.rs`: `Plugboard::process` — partner letter if one
exists, otherwise the input unchanged.  A non-letter input is looked up at
index 0 (`unwrap_or(0)`). -/
def Plugboard.process (pb : Plugboard) (input : Char) : Char :=
  let input_index := (letter_to_index input).getD 0
  match pb.connections input_index with
  | some output_index => (index_to_letter output_index).getD input
  | none => input

/-- From `plugboard.rs`: `Plugboard::clear`. -/
def Plugboard.clear (_pb : Plugboard) : Plugboard := ⟨fun _ => none, 0⟩

/-- From `reflector.rs`: the `Reflector` struct. -/
structure Reflector where
  wiring : Nat → Nat
  name : String

instance : Inhabited Reflector := ⟨⟨fun i => i, "default"⟩⟩

/-- From `reflector.rs`, the construction loop of `Reflector::new`:
`wiring_array[i] = target`, failing on a non-alphabetic character. -/
def build_reflector_table : List Char → Nat → (Nat → Nat) →
    Except String (Nat → Nat)
  | [], _, w => .ok w
  | ch :: rest, i, w =>
    match letter_to_index ch with
    | none => .error "Ungueltiges Zeichen in Verdrahtung"
    | some target => build_reflector_table rest (i + 1) (Function.update w i target)

/-- From `reflector.rs`: `Reflector::is_valid_permutation` — the seen-target
bitmap scan: every target `< 26`, no duplicate target, every index covered. -/
def mark_targets : List Nat → (Nat → Bool) → Option (Nat → Bool)
  | [], seen => some seen
  | t :: rest, seen =>
    if 26 ≤ t then none
    else if seen t then none
    else mark_targets rest (Function.update seen t true)

/-- From `reflector.rs`: `Reflector::is_valid_permutation`. -/
def is_valid_permutation (wiring : Nat → Nat) : Bool :=
  match mark_targets ((List.range 26).map wiring) (fun _ => false) with
  | none => false
  | some targets => (List.range 26).all fun i => targets i

/-- From `reflector.rs`: `Reflector::new` — length check, table build,
permutation validation. -/
def Reflector.new (wiring : List Char) (name : String) : Except String Reflector :=
  if wiring.length ≠ 26 then
    .error "Verdrahtung muss genau 26 Zeichen lang sein"
  else
    match build_reflector_table wiring 0 (fun _ => 0) with
    | .error e => .error e
    | .ok wiring_array =>
        if ¬ is_valid_permutation wiring_array then
          .error "Verdrahtung muss eine gueltige Permutation sein"
        else
          .ok ⟨wiring_array, name⟩

/-- From `reflector.rs`: `Reflector::reflect` — direct table lookup, non-
letters read slot 0. -/
def Reflector.reflect (re : Reflector) (input : Char) : Char :=
  let input_index := (letter_to_index input).getD 0
  let output_index := re.wiring input_index
  (index_to_letter output_index).getD 'A'

/-- From `reflector.rs`: `reflectors::reflector_a`. -/
def reflector_a : Except String Reflector :=
  Reflector.new "EJMZALYXVBWFCRQUONTSPIKHGD".toList "A"

/-- From `reflector.rs`: `reflectors::reflector_b`. -/
def reflector_b : Except String Reflector :=
  Reflector.new "YRUHQSLDPXNGOKMIEBFZCWVJAT".toList "B"

/-- From `reflector.rs`: `reflectors::reflector_c`. -/
def reflector_c : Except String Reflector :=
  Reflector.new "FVPJIAOYEDRZXWGCTKUQSBNMHL".toList "C"

/-- From `machine.rs`: the `EnigmaMachine` struct; the array `rotors:
[Rotor; 3]` (left, middle, right) is modelled by its three slots. -/
structure EnigmaMachine where
  rotor0 : Rotor
  rotor1 : Rotor
  rotor2 : Rotor
  reflector : Reflector
  plugboard : Plugboard

instance : Inhabited EnigmaMachine :=
  ⟨⟨default, default, default, default, default⟩⟩

/-- From `machine.rs`: `EnigmaMachine::new`. -/
def EnigmaMachine.new (r0 r1 r2 : Rotor) (reflector : Reflector)
    (plugboard : Plugboard) : EnigmaMachine :=
  ⟨r0, r1, r2, reflector, plugboard⟩

/-- From `machine.rs`: `EnigmaMachine::step_rotors` — the right rotor
always steps; the middle steps when the right stepped off its notch, or
when the middle itself sits on its own notch (double step); the left steps
when the middle stepped off its notch. -/
def EnigmaMachine.step_rotors (m : EnigmaMachine) : EnigmaMachine :=
  let stepped_right := m.rotor2.step
  let right_rotor_notched := stepped_right.1
  let stepped_middle :=
    if right_rotor_notched then m.rotor1.step
    else if m.rotor1.position = m.rotor1.notch then m.rotor1.step
    else (false, m.rotor1)
  let middle_rotor_notched := stepped_middle.1
  let new_rotor0 := if middle_rotor_notched then (m.rotor0.step).2 else m.rotor0
  { m with rotor0 := new_rotor0, rotor1 := stepped_middle.2, rotor2 := stepped_right.2 }

/-- From `machine.rs`: `EnigmaMachine::encrypt_char` — plugboard, step the
rotors, forward through rotors 0,1,2, reflect, backward through rotors
2,1,0, plugboard again.  Returns the output character and the mutated
machine. -/
def EnigmaMachine.encrypt_char (m : EnigmaMachine) (input : Char) :
    Char × EnigmaMachine :=
  let after_plugboard := m.plugboard.process input
  let m' := m.step_rotors
  let s1 := m'.rotor0.forward after_plugboard
  let s2 := m'.rotor1.forward s1
  let s3 := m'.rotor2.forward s2
  let s4 := m'.reflector.reflect s3
  let s5 := m'.rotor2.backward s4
  let s6 := m'.rotor1.backward s5
  let s7 := m'.rotor0.backward s6
  (m'.plugboard.process s7, m')

/-- From `machine.rs`: the shared loop body of `EnigmaMachine::encrypt` and
`EnigmaMachine::decrypt` (the two source loops are textually identical):
encrypt each character, pushing a space after every fifth output
(`i > 0 && i % 5 == 4`). -/
def EnigmaMachine.process_text_loop :
    EnigmaMachine → List Char → Nat → List Char × EnigmaMachine
  | m, [], _ => ([], m)
  | m, ch :: rest, i =>
    let step := m.encrypt_char ch
    let tail := EnigmaMachine.process_text_loop step.2 rest (i + 1)
    (if 0 < i ∧ i % 5 = 4 then step.1 :: ' ' :: tail.1 else step.1 :: tail.1,
      tail.2)

/-- From `machine.rs`: `EnigmaMachine::encrypt` — clean the text, then run
the per-character loop with block-of-5 spacing. -/
def EnigmaMachine.encrypt (m : EnigmaMachine) (text : List Char) :
    List Char × EnigmaMachine :=
  EnigmaMachine.process_text_loop m (clean_text text) 0

/-- From `machine.rs`: `EnigmaMachine::decrypt` — same logic as `encrypt`
(the source loop calls `encrypt_char` as well). -/
def EnigmaMachine.decrypt (m : EnigmaMachine) (text : List Char) :
    List Char × EnigmaMachine :=
  EnigmaMachine.process_text_loop m (clean_text text) 0

/-- From `machine.rs`: `EnigmaMachine::set_rotor_positions` — each slot set
through `letter_to_index`; an invalid letter leaves that rotor unchanged. -/
def EnigmaMachine.set_rotor_positions (m : EnigmaMachine)
    (positions : Char × Char × Char) : EnigmaMachine :=
  let set := fun (r : Rotor) (pos : Char) =>
    match letter_to_index pos with
    | some index => r.set_position index
    | none => r
  { m with rotor0 := set m.rotor0 positions.1,
           rotor1 := set m.rotor1 positions.2.1,
           rotor2 := set m.rotor2 positions.2.2 }

/-- From `machine.rs`: `EnigmaMachine::set_ring_settings`. -/
def EnigmaMachine.set_ring_settings (m : EnigmaMachine)
    (ring_settings : Char × Char × Char) : EnigmaMachine :=
  let set := fun (r : Rotor) (ring : Char) =>
    match letter_to_index ring with
    | some index => r.set_ring_setting index
    | none => r
  { m with rotor0 := set m.rotor0 ring_settings.1,
           rotor1 := set m.rotor1 ring_settings.2.1,
           rotor2 := set m.rotor2 ring_settings.2.2 }

/-- From `machine.rs`: `EnigmaMachine::get_rotor_positions`. -/
def EnigmaMachine.get_rotor_positions (m : EnigmaMachine) : Char × Char × Char :=
  (m.rotor0.get_position_char, m.rotor1.get_position_char,
    m.rotor2.get_position_char)

/-- From `machine.rs`: `EnigmaMachine::get_ring_settings`. -/
def EnigmaMachine.get_ring_settings (m : EnigmaMachine) : Char × Char × Char :=
  (m.rotor0.get_ring_setting_char, m.rotor1.get_ring_setting_char,
    m.rotor2.get_ring_setting_char)

/-- From `machine.rs`: `factory::create_standard_machine` — rotors I, II,
III with the position/ring letters applied in order, reflector B, plugboard
from the pair string.  The Rust `ch as usize - b'A' as usize` cast is
`ch.toNat - 65` (the factories are only ever called with letters `'A'..'Z'`,
where the Rust subtraction cannot underflow). -/
def create_standard_machine (rotor_positions ring_settings : Char × Char × Char)
    (plugboard_connections : List (List Char)) : Except String EnigmaMachine :=
  match rotor_i (ring_settings.1.toNat - 65) (rotor_positions.1.toNat - 65) with
  | .error e => .error e
  | .ok r0 =>
    match rotor_ii (ring_settings.2.1.toNat - 65) (rotor_positions.2.1.toNat - 65) with
    | .error e => .error e
    | .ok r1 =>
      match rotor_iii (ring_settings.2.2.toNat - 65) (rotor_positions.2.2.toNat - 65) with
      | .error e => .error e
      | .ok r2 =>
        match reflector_b with
        | .error e => .error e
        | .ok reflector =>
          match Plugboard.from_string plugboard_connections with
          | .error e => .error e
          | .ok plugboard => .ok (EnigmaMachine.new r0 r1 r2 reflector plugboard)

/-- From `machine.rs`: the rotor-type match inside
`factory::create_custom_machine`. -/
def rotor_creator (rotor_type : String) :
    Except String (Nat → Nat → Except String Rotor) :=
  match rotor_type with
  | "I" => .ok rotor_i
  | "II" => .ok rotor_ii
  | "III" => .ok rotor_iii
  | "IV" => .ok rotor_iv
  | "V" => .ok rotor_v
  | _ => .error "Unbekannter Rotortyp"

/-- From `machine.rs`: the reflector-type match inside
`factory::create_custom_machine`. -/
def reflector_creator (reflector_type : String) : Except String Reflector :=
  match reflector_type with
  | "A" => reflector_a
  | "B" => reflector_b
  | "C" => reflector_c
  | _ => .error "Unbekannter Reflektortyp"

/-- From `machine.rs`: `factory::create_custom_machine`.  The loop over the
three `rotor_types` is unrolled; on iteration `k` the source computes
`ring_idx = rotor_positions.len() - 1 - rotors.len() = 2 - k` and passes
`ring_settings[ring_idx]` and `rotor_positions[ring_idx]` to the creator —
i.e. the position and ring letters are consumed in *reverse* order of the
rotor types. -/
def create_custom_machine (rotor_types : String × String × String)
    (rotor_positions ring_settings : Char × Char × Char)
    (reflector_type : String) (plugboard_connections : List (List Char)) :
    Except String EnigmaMachine :=
  match rotor_creator rotor_types.1 with
  | .error e => .error e
  | .ok creator0 =>
    match creator0 (ring_settings.2.2.toNat - 65) (rotor_positions.2.2.toNat - 65) with
    | .error e => .error e
    | .ok r0 =>
      match rotor_creator rotor_types.2.1 with
      | .error e => .error e
      | .ok creator1 =>
        match creator1 (ring_settings.2.1.toNat - 65) (rotor_positions.2.1.toNat - 65) with
        | .error e => .error e
        | .ok r1 =>
          match rotor_creator rotor_types.2.2 with
          | .error e => .error e
          | .ok creator2 =>
            match creator2 (ring_settings.1.toNat - 65) (rotor_positions.1.toNat - 65) with
            | .error e => .error e
            | .ok r2 =>
              match reflector_creator reflector_type with
              | .error e => .error e
              | .ok reflector =>
                match Plugboard.from_string plugboard_connections with
                | .error e => .error e
                | .ok plugboard =>
                    .ok (EnigmaMachine.new r0 r1 r2 reflector plugboard)

/-! ## Well-formedness predicates

`RotorWF` holds for every rotor built by `Rotor::new` from a bijective
wiring, `ReflectorWF` for a reflector whose table is an involution (such as
the predefined B table), and `plugboard_wf` for every plugboard reachable
by successful operations. -/

/-- A rotor whose tables are mutually inverse permutations of `0..25` and
whose ring setting and position are in range. -/
def RotorWF (r : Rotor) : Prop :=
  r.ring_setting < 26 ∧ r.position < 26 ∧
  (∀ i, i < 26 → r.wiring i < 26) ∧
  (∀ i, i < 26 → r.reverse_wiring i < 26) ∧
  (∀ i, i < 26 → r.reverse_wiring (r.wiring i) = i) ∧
  (∀ i, i < 26 → r.wiring (r.reverse_wiring i) = i)

/-- A reflector whose table is an involution of `0..25` (the predefined
tables A, B, C all are). -/
def ReflectorWF (re : Reflector) : Prop :=
  (∀ i, i < 26 → re.wiring i < 26) ∧
  (∀ i, i < 26 → re.wiring (re.wiring i) = i)

/-- Executable check that the plugboard pairing is symmetric with in-range
partners on the 26 slots the source ever reads. -/
def plugboard_wf (pb : Plugboard) : Bool :=
  (List.range 26).all fun i =>
    match pb.connections i with
    | some j => decide (j < 26) && decide (pb.connections j = some i)
    | none => true

/-- A machine whose rotors are well-formed, whose reflector table is an
involution, and whose plugboard pairing is symmetric. -/
def EnigmaMachine.WF (m : EnigmaMachine) : Prop :=
  RotorWF m.rotor0 ∧ RotorWF m.rotor1 ∧ RotorWF m.rotor2 ∧
  ReflectorWF m.reflector ∧ plugboard_wf m.plugboard = true

/-! ## Character-level facts -/

/-- The machine's alphabet: the uppercase ASCII letters. -/
def IsUpperLetter (c : Char) : Prop := 65 ≤ c.toNat ∧ c.toNat ≤ 90

instance (c : Char) : Decidable (IsUpperLetter c) := by
  unfold IsUpperLetter; exact inferInstance

/-! ## Rotor construction: the built tables are inverse to each other -/

/-- The index denoted by each character of a wiring string (the values the
construction loop writes into `wiring_array`). -/
def wiring_targets (s : List Char) : List Nat :=
  s.map fun c => (letter_to_index c).getD 0

/-- A 26-letter wiring string denoting a bijection of `[0,25]`: 26
alphabetic characters whose letter indices are pairwise distinct. -/
def DenotesBijection (s : List Char) : Prop :=
  s.length = 26 ∧ (∀ c ∈ s, c.isAlpha = true) ∧ (wiring_targets s).Nodup

instance (s : List Char) : Decidable (DenotesBijection s) := by
  unfold DenotesBijection; exact inferInstance

/-! ## Plugboard: reachable states and their invariant -/

/-- The plugboard states reachable by successful operations: the empty
construction, `from_string`, `add_connection`, `remove_connection` and
`clear`. -/
inductive Reachable : Plugboard → Prop
  | new : Reachable Plugboard.new
  | from_string (tokens : List (List Char)) (pb : Plugboard) :
      Plugboard.from_string tokens = .ok pb → Reachable pb
  | add (pb : Plugboard) (a b : Char) (pb' : Plugboard) : Reachable pb →
      pb.add_connection a b = .ok pb' → Reachable pb'
  | remove (pb : Plugboard) (a : Char) (pb' : Plugboard) : Reachable pb →
      pb.remove_connection a = .ok pb' → Reachable pb'
  | clear (pb : Plugboard) : Reachable pb → Reachable pb.clear

/-! ## The per-character cipher map -/

/-- The pure character transform applied by `encrypt_char` *after* the
rotors have stepped: plugboard, rotors forward, reflector, rotors backward,
plugboard. -/
def enc_map (m : EnigmaMachine) (c : Char) : Char :=
  m.plugboard.process (m.rotor0.backward (m.rotor1.backward (m.rotor2.backward
    (m.reflector.reflect (m.rotor2.forward (m.rotor1.forward (m.rotor0.forward
      (m.plugboard.process c))))))))

/-! ## Text-level lemmas -/

/-- The per-character outputs and final state of a run, without the
block-of-5 presentation spacing. -/
def enc_list : EnigmaMachine → List Char → List Char × EnigmaMachine
  | m, [] => ([], m)
  | m, c :: cs =>
    let step := m.encrypt_char c
    let tail := enc_list step.2 cs
    (step.1 :: tail.1, tail.2)

/-! ## Encryption mutates only the rotor positions -/

/-- `r'` agrees with `r` on every field except possibly the position. -/
def SamePos (r r' : Rotor) : Prop := r' = { r with position := r'.position }

/-- `m'` agrees with `m` everywhere except possibly the rotor positions. -/
def SamePosM (m m' : EnigmaMachine) : Prop :=
  SamePos m.rotor0 m'.rotor0 ∧ SamePos m.rotor1 m'.rotor1 ∧
  SamePos m.rotor2 m'.rotor2 ∧ m'.reflector = m.reflector ∧
  m'.plugboard = m.plugboard

/-! ## Concrete machines for the reference vectors -/

instance (r : Rotor) : Decidable (RotorWF r) := by
  unfold RotorWF; exact inferInstance

instance (re : Reflector) : Decidable (ReflectorWF re) := by
  unfold ReflectorWF; exact inferInstance

instance (m : EnigmaMachine) : Decidable m.WF := by
  unfold EnigmaMachine.WF; exact inferInstance

/-- Standard machine: rotors I, II, III at positions AAA, rings AAA,
reflector B, empty plugboard. -/
def machine_AAA : EnigmaMachine :=
  (create_standard_machine ('A', 'A', 'A') ('A', 'A', 'A') []).toOption.getD default

/-- Standard machine at positions A, E, A (middle rotor II on its notch). -/
def machine_AEA : EnigmaMachine :=
  (create_standard_machine ('A', 'E', 'A') ('A', 'A', 'A') []).toOption.getD default

/-- Standard machine at AAA with plugboard "AB CD EF". -/
def machine_plug : EnigmaMachine :=
  (create_standard_machine ('A', 'A', 'A') ('A', 'A', 'A')
    [['A', 'B'], ['C', 'D'], ['E', 'F']]).toOption.getD default

/-- Rotor I at ring setting 3, position 7. -/
def rotor_I_3_7 : Rotor := (rotor_i 3 7).toOption.getD default

/-- The plugboard produced by pairing 'a' with 'A'. -/
def plugboard_aA : Plugboard :=
  (Plugboard.new.add_connection 'a' 'A').toOption.getD Plugboard.new

/-- The plugboard built from the pair string "AB". -/
def plugboard_AB : Plugboard :=
  (Plugboard.from_string [['A', 'B']]).toOption.getD Plugboard.new

/-- The output index of the exact transform as spec §4.3 states it, over
the integers: `adjusted = (x + p - r + 26) mod 26`,
`t = wiringTable[adjusted]`, output `= (t - p + r + 26) mod 26`. -/
def spec_forward_index (wiring : Nat → Nat) (p r x : Int) : Int :=
  ((wiring ((x + p - r + 26) % 26).toNat : Int) - p + r + 26) % 26

/-- The machine built by the custom factory with rotor types I, II, III,
position letters A, B, C, ring settings A, A, A, reflector B and no
plugboard. -/
def custom_machine_ABC : EnigmaMachine :=
  (create_custom_machine ("I", "II", "III") ('A', 'B', 'C') ('A', 'A', 'A')
    "B" []).toOption.getD default

/-- The machine built by the custom factory with rotor types I, II, III,
position letters A, B, C and ring settings D, E, F. -/
def custom_machine_DEF : EnigmaMachine :=
  (create_custom_machine ("I", "II", "III") ('A', 'B', 'C') ('D', 'E', 'F')
    "B" []).toOption.getD default

theorem uint32_le_iff (a b : UInt32) : a ≤ b ↔ a.toNat ≤ b.toNat := by
  rw [UInt32.le_def, BitVec.le_def]; rfl

theorem char_toNat_ofNat_valid (n : Nat) (h : n.isValidChar) :
    (Char.ofNat n).toNat = n := by
  unfold Char.ofNat
  rw [dif_pos h]
  rfl

theorem valid_char_small (n : Nat) (h : n < 256) : n.isValidChar := by
  left; omega

theorem upper_isAlpha (c : Char) (h : IsUpperLetter c) : c.isAlpha = true := by
  unfold Char.isAlpha Char.isUpper
  have h65 : (65 : UInt32) ≤ c.val := by rw [uint32_le_iff]; exact h.1
  have h90 : c.val ≤ (90 : UInt32) := by rw [uint32_le_iff]; exact h.2
  simp [h65, h90, ge_iff_le]

theorem upper_toUpper (c : Char) (h : IsUpperLetter c) : c.toUpper = c := by
  obtain ⟨h1, h2⟩ := h
  unfold Char.toUpper
  rw [if_neg]
  omega

theorem alpha_toNat_cases (c : Char) (h : c.isAlpha = true) :
    (65 ≤ c.toNat ∧ c.toNat ≤ 90) ∨ (97 ≤ c.toNat ∧ c.toNat ≤ 122) := by
  unfold Char.isAlpha Char.isUpper Char.isLower at h
  rcases Bool.or_eq_true_iff.mp h with h' | h' <;>
    simp only [Bool.and_eq_true, decide_eq_true_eq, ge_iff_le] at h'
  · exact Or.inl ⟨(uint32_le_iff _ _).mp h'.1, (uint32_le_iff _ _).mp h'.2⟩
  · exact Or.inr ⟨(uint32_le_iff _ _).mp h'.1, (uint32_le_iff _ _).mp h'.2⟩

theorem alpha_toUpper_bounds (c : Char) (h : c.isAlpha = true) :
    65 ≤ c.toUpper.toNat ∧ c.toUpper.toNat ≤ 90 := by
  rcases alpha_toNat_cases c h with h' | h'
  · rw [upper_toUpper c h']; exact h'
  · unfold Char.toUpper
    rw [if_pos (by omega)]
    rw [char_toNat_ofNat_valid _ (valid_char_small _ (by omega))]
    omega

/-- A letter's index is below 26. -/
theorem letter_to_index_lt (c : Char) (i : Nat)
    (h : letter_to_index c = some i) : i < 26 := by
  unfold letter_to_index at h
  split at h
  · rename_i ha
    have := alpha_toUpper_bounds c ha
    simp only [Option.some.injEq] at h
    omega
  · exact absurd h (by simp)

/-- On uppercase letters, `letter_to_index` is `toNat - 65`. -/
theorem letter_to_index_upper (c : Char) (h : IsUpperLetter c) :
    letter_to_index c = some (c.toNat - 65) := by
  unfold letter_to_index
  rw [if_pos (upper_isAlpha c h), upper_toUpper c h]

/-- `index_to_letter` succeeds below 26 and its result is an uppercase
letter with the expected code. -/
theorem index_to_letter_lt (i : Nat) (h : i < 26) :
    index_to_letter i = some (Char.ofNat (65 + i)) := by
  unfold index_to_letter
  rw [if_pos h]

theorem ofNat_letter_toNat (i : Nat) (h : i < 26) :
    (Char.ofNat (65 + i)).toNat = 65 + i :=
  char_toNat_ofNat_valid _ (valid_char_small _ (by omega))

theorem ofNat_letter_upper (i : Nat) (h : i < 26) :
    IsUpperLetter (Char.ofNat (65 + i)) := by
  constructor <;> rw [ofNat_letter_toNat i h] <;> omega

theorem upper_ofNat_roundtrip (c : Char) (h : IsUpperLetter c) :
    Char.ofNat (65 + (c.toNat - 65)) = c := by
  obtain ⟨h1, h2⟩ := h
  have e : 65 + (c.toNat - 65) = c.toNat := by omega
  rw [e, Char.ofNat_toNat]

/-- Index of the uppercase letter built from an index. -/
theorem letter_to_index_ofNat (i : Nat) (h : i < 26) :
    letter_to_index (Char.ofNat (65 + i)) = some i := by
  rw [letter_to_index_upper _ (ofNat_letter_upper i h), ofNat_letter_toNat i h]
  simp

/-- Characters produced by `clean_text` are uppercase letters. -/
theorem clean_text_upper (text : List Char) :
    ∀ c ∈ clean_text text, IsUpperLetter c := by
  intro c hc
  unfold clean_text at hc
  simp only [List.mem_map, List.mem_filter] at hc
  obtain ⟨d, ⟨_, hd⟩, rfl⟩ := hc
  exact alpha_toUpper_bounds d hd

/-- A space is dropped by `clean_text`. -/
theorem clean_text_space (rest : List Char) :
    clean_text (' ' :: rest) = clean_text rest := by
  unfold clean_text
  simp [List.filter_cons, Char.isAlpha, Char.isUpper, Char.isLower]

/-- An uppercase letter survives `clean_text` at the head. -/
theorem clean_text_upper_cons (c : Char) (rest : List Char)
    (h : IsUpperLetter c) : clean_text (c :: rest) = c :: clean_text rest := by
  unfold clean_text
  simp only [List.filter_cons, upper_isAlpha c h, if_true, List.map_cons]
  rw [upper_toUpper c h]

/-- `clean_text` fixes strings of uppercase letters. -/
theorem clean_text_of_upper (text : List Char)
    (h : ∀ c ∈ text, IsUpperLetter c) : clean_text text = text := by
  induction text with
  | nil => rfl
  | cons c rest ih =>
      have hc := h c (by simp)
      rw [clean_text_upper_cons c rest hc, ih fun d hd => h d (by simp [hd])]

/-! ## Rotor transform: inverse lemmas -/

/-- The offset arithmetic of `forward`/`backward` cancels. -/
theorem offset_cancel (x p r : Nat) (hx : x < 26) (hp : p < 26) (hr : r < 26) :
    ((x + p + 26 - r) % 26 + r + 26 - p) % 26 = x := by
  omega

/-- `backward` undoes `forward` on uppercase letters. -/
theorem rotor_backward_forward (r : Rotor) (hr : RotorWF r) (c : Char)
    (hc : IsUpperLetter c) : r.backward (r.forward c) = c := by
  obtain ⟨hring, hpos, hw, hrev, hri, _⟩ := hr
  unfold Rotor.forward Rotor.backward
  rw [letter_to_index_upper c hc]
  set x := c.toNat - 65 with hxdef
  have hx : x < 26 := by obtain ⟨h1, h2⟩ := hc; omega
  set a := (x + r.position + 26 - r.ring_setting) % 26 with hadef
  have ha : a < 26 := Nat.mod_lt _ (by omega)
  set t := r.wiring a with htdef
  have ht : t < 26 := hw a ha
  set y := (t + r.ring_setting + 26 - r.position) % 26 with hydef
  have hy : y < 26 := Nat.mod_lt _ (by omega)
  simp only [Option.getD_some, index_to_letter_lt y hy]
  rw [letter_to_index_ofNat y hy]
  simp only [Option.getD_some]
  have hback : (y + r.position + 26 - r.ring_setting) % 26 = t := by
    have := offset_cancel t r.ring_setting r.position ht hring hpos
    omega
  rw [hback, hri a ha]
  rw [offset_cancel x r.position r.ring_setting hx hpos hring]
  rw [index_to_letter_lt x hx]
  simp only [Option.getD_some]
  exact upper_ofNat_roundtrip c hc

/-- `forward` undoes `backward` on uppercase letters. -/
theorem rotor_forward_backward (r : Rotor) (hr : RotorWF r) (c : Char)
    (hc : IsUpperLetter c) : r.forward (r.backward c) = c := by
  obtain ⟨hring, hpos, hw, hrev, _, hir⟩ := hr
  unfold Rotor.forward Rotor.backward
  rw [letter_to_index_upper c hc]
  set x := c.toNat - 65 with hxdef
  have hx : x < 26 := by obtain ⟨h1, h2⟩ := hc; omega
  set a := (x + r.position + 26 - r.ring_setting) % 26 with hadef
  have ha : a < 26 := Nat.mod_lt _ (by omega)
  set t := r.reverse_wiring a with htdef
  have ht : t < 26 := hrev a ha
  set y := (t + r.ring_setting + 26 - r.position) % 26 with hydef
  have hy : y < 26 := Nat.mod_lt _ (by omega)
  simp only [Option.getD_some, index_to_letter_lt y hy]
  rw [letter_to_index_ofNat y hy]
  simp only [Option.getD_some]
  have hback : (y + r.position + 26 - r.ring_setting) % 26 = t := by
    have := offset_cancel t r.ring_setting r.position ht hring hpos
    omega
  rw [hback, hir a ha]
  rw [offset_cancel x r.position r.ring_setting hx hpos hring]
  rw [index_to_letter_lt x hx]
  simp only [Option.getD_some]
  exact upper_ofNat_roundtrip c hc

/-- `forward` always outputs an uppercase letter. -/
theorem rotor_forward_upper (r : Rotor) (c : Char) :
    IsUpperLetter (r.forward c) := by
  have h26 : ∀ n : Nat, n % 26 < 26 := fun n => Nat.mod_lt _ (by omega)
  simp only [Rotor.forward, index_to_letter_lt _ (h26 _), Option.getD_some]
  exact ofNat_letter_upper _ (h26 _)

/-- `backward` always outputs an uppercase letter. -/
theorem rotor_backward_upper (r : Rotor) (c : Char) :
    IsUpperLetter (r.backward c) := by
  have h26 : ∀ n : Nat, n % 26 < 26 := fun n => Nat.mod_lt _ (by omega)
  simp only [Rotor.backward, index_to_letter_lt _ (h26 _), Option.getD_some]
  exact ofNat_letter_upper _ (h26 _)

theorem alpha_letter_to_index (c : Char) (h : c.isAlpha = true) :
    letter_to_index c = some (c.toUpper.toNat - 65) ∧ c.toUpper.toNat - 65 < 26 := by
  have hb := alpha_toUpper_bounds c h
  unfold letter_to_index
  rw [if_pos h]
  exact ⟨rfl, by omega⟩

/-- Full characterisation of the construction loop `build_tables` on an
all-alphabetic wiring: it succeeds; the forward table holds the letter
indices in order; slots outside the written ranges keep their previous
contents; and the reverse table maps each target whose occurrence is not
followed by a duplicate back to that occurrence's index. -/
theorem build_tables_spec (s : List Char) :
    ∀ (i : Nat) (w rev : Nat → Nat), (∀ c ∈ s, c.isAlpha = true) →
    ∃ w' rev', build_tables s i w rev = .ok (w', rev') ∧
      (∀ k, k < s.length → w' (i + k) = (wiring_targets s).getD k 0) ∧
      (∀ j, (∀ k, k < s.length → j ≠ i + k) → w' j = w j) ∧
      (∀ t, (∀ k, k < s.length → (wiring_targets s).getD k 0 ≠ t) →
        rev' t = rev t) ∧
      (∀ k, k < s.length →
        (∀ k', k < k' → k' < s.length →
          (wiring_targets s).getD k' 0 ≠ (wiring_targets s).getD k 0) →
        rev' ((wiring_targets s).getD k 0) = i + k) := by
  induction s with
  | nil =>
      intro i w rev _
      exact ⟨w, rev, rfl, by simp, fun j _ => rfl, fun t _ => rfl, by simp⟩
  | cons c rest ih =>
      intro i w rev h
      have hc := h c (by simp)
      obtain ⟨hsome, hlt⟩ := alpha_letter_to_index c hc
      set tc := c.toUpper.toNat - 65 with htc
      have htargets : wiring_targets (c :: rest) =
          tc :: wiring_targets rest := by
        unfold wiring_targets
        simp [hsome]
      obtain ⟨w', rev', heq, h1, h2, h3, h4⟩ :=
        ih (i + 1) (Function.update w i tc) (Function.update rev tc i)
          (fun d hd => h d (by simp [hd]))
      refine ⟨w', rev', ?_, ?_, ?_, ?_, ?_⟩
      · unfold build_tables
        rw [hsome]
        exact heq
      · intro k hk
        match k with
        | 0 =>
            rw [htargets, List.getD_cons_zero, Nat.add_zero]
            have : ∀ k, k < rest.length → i ≠ i + 1 + k := by omega
            rw [h2 i this, Function.update_same]
        | Nat.succ k' =>
            rw [htargets, List.getD_cons_succ]
            have : i + (k' + 1) = (i + 1) + k' := by omega
            rw [this]
            exact h1 k' (by simpa using hk)
      · intro j hj
        have hji : j ≠ i := by
          have := hj 0 (by simp)
          omega
        have : ∀ k, k < rest.length → j ≠ i + 1 + k := by
          intro k hk
          have := hj (k + 1) (by simpa using hk)
          omega
        rw [h2 j this, Function.update_noteq hji]
      · intro t ht
        have htc0 : tc ≠ t := by
          have := ht 0 (by simp)
          rwa [htargets, List.getD_cons_zero] at this
        have : ∀ k, k < rest.length → (wiring_targets rest).getD k 0 ≠ t := by
          intro k hk
          have := ht (k + 1) (by simpa using hk)
          rwa [htargets, List.getD_cons_succ] at this
        rw [h3 t this, Function.update_noteq (Ne.symm htc0)]
      · intro k hk hnodup
        match k with
        | 0 =>
            rw [htargets, List.getD_cons_zero]
            have hrest : ∀ k, k < rest.length →
                (wiring_targets rest).getD k 0 ≠ tc := by
              intro k hk'
              have := hnodup (k + 1) (by omega) (by simpa using hk')
              rwa [htargets, List.getD_cons_succ, List.getD_cons_zero] at this
            rw [h3 tc hrest, Function.update_same]
            omega
        | Nat.succ k' =>
            rw [htargets, List.getD_cons_succ]
            have hres : rev' ((wiring_targets rest).getD k' 0) = (i + 1) + k' := by
              refine h4 k' (by simpa using hk) ?_
              intro k'' hk1 hk2
              have := hnodup (k'' + 1) (by omega) (by simpa using hk2)
              rwa [htargets, List.getD_cons_succ, List.getD_cons_succ] at this
            rw [hres]
            omega

/-- Every entry written by the loop is a valid index. -/
theorem wiring_targets_lt (s : List Char) (h : ∀ c ∈ s, c.isAlpha = true)
    (k : Nat) (hk : k < s.length) : (wiring_targets s).getD k 0 < 26 := by
  have hlen : (wiring_targets s).length = s.length := by
    unfold wiring_targets; simp
  have hmemlt : ∀ x ∈ wiring_targets s, x < 26 := by
    intro x hx
    unfold wiring_targets at hx
    obtain ⟨c, hcs, hc⟩ := List.mem_map.mp hx
    obtain ⟨hsome, hlt⟩ := alpha_letter_to_index c (h c hcs)
    rw [hsome] at hc
    simp only [Option.getD_some] at hc
    omega
  rw [List.getD_eq_getElem _ _ (by omega)]
  exact hmemlt _ (List.getElem_mem _)

/-- On a bijective wiring string the loop's targets are surjective onto
`0..25`. -/
theorem wiring_targets_surj (s : List Char) (hbij : DenotesBijection s) :
    ∀ t, t < 26 → ∃ k, k < s.length ∧ (wiring_targets s).getD k 0 = t := by
  obtain ⟨hlen, halpha, hnodup⟩ := hbij
  intro t ht
  have hlen' : (wiring_targets s).length = 26 := by
    unfold wiring_targets; simp [hlen]
  have hsub : (wiring_targets s).toFinset ⊆ Finset.range 26 := by
    intro x hx
    rw [List.mem_toFinset] at hx
    obtain ⟨k, hk, hget⟩ := List.getElem_of_mem hx
    rw [Finset.mem_range]
    have := wiring_targets_lt s halpha k (by omega)
    rwa [List.getD_eq_getElem _ _ (by omega), hget] at this
  have hcard : (Finset.range 26).card ≤ (wiring_targets s).toFinset.card := by
    rw [List.toFinset_card_of_nodup hnodup, hlen', Finset.card_range]
  have heq := Finset.eq_of_subset_of_card_le hsub hcard
  have hmem : t ∈ wiring_targets s := by
    rw [← List.mem_toFinset, heq, Finset.mem_range]
    exact ht
  obtain ⟨k, hk, hget⟩ := List.getElem_of_mem hmem
  refine ⟨k, by omega, ?_⟩
  rw [List.getD_eq_getElem _ _ (by omega), hget]

/-- A rotor successfully constructed from a bijective wiring string is
well-formed: the two tables are mutually inverse permutations of `0..25`. -/
theorem rotor_new_wf (s : List Char) (notch : Char) (name : String)
    (ring_setting position : Nat) (r : Rotor) (hbij : DenotesBijection s)
    (hok : Rotor.new s notch name ring_setting position = .ok r) : RotorWF r := by
  obtain ⟨hlen, halpha, hnodup⟩ := hbij
  have hlenT : (wiring_targets s).length = s.length := by
    unfold wiring_targets; simp
  unfold Rotor.new at hok
  rw [if_neg (by omega)] at hok
  by_cases hrange : 26 ≤ ring_setting ∨ 26 ≤ position
  · rw [if_pos hrange] at hok
    exact absurd hok (by simp)
  rw [if_neg hrange] at hok
  obtain ⟨w', rev', heq, h1, _, _, h4⟩ :=
    build_tables_spec s 0 (fun _ => 0) (fun _ => 0) halpha
  rcases hnotch : letter_to_index notch with _ | ni
  · rw [hnotch] at hok
    exact absurd hok (by simp)
  rw [hnotch, heq] at hok
  simp only [Except.ok.injEq] at hok
  subst hok
  have hw : ∀ i, i < 26 → w' i = (wiring_targets s).getD i 0 := by
    intro i hi
    have := h1 i (by omega)
    simpa using this
  have hgetD_inj : ∀ a b, a < s.length → b < s.length →
      (wiring_targets s).getD a 0 = (wiring_targets s).getD b 0 → a = b := by
    intro a b ha hb hab
    rw [List.getD_eq_getElem _ _ (show a < (wiring_targets s).length by omega),
      List.getD_eq_getElem _ _ (show b < (wiring_targets s).length by omega)] at hab
    exact (List.Nodup.getElem_inj_iff hnodup).mp hab
  have hrev : ∀ i, i < 26 → rev' ((wiring_targets s).getD i 0) = i := by
    intro i hi
    have := h4 i (by omega) ?_
    · simpa using this
    · intro k' hik hk'
      intro hcontra
      have := hgetD_inj k' i hk' (by omega) hcontra
      omega
  refine ⟨?_, ?_, ?_, ?_, ?_, ?_⟩
  · show ring_setting < 26
    omega
  · show position < 26
    omega
  · intro i hi
    show w' i < 26
    rw [hw i hi]
    exact wiring_targets_lt s halpha i (by omega)
  · intro i hi
    show rev' i < 26
    obtain ⟨k, hk, hget⟩ := wiring_targets_surj s ⟨hlen, halpha, hnodup⟩ i hi
    rw [← hget, hrev k (by omega)]
    omega
  · intro i hi
    show rev' (w' i) = i
    rw [hw i hi]
    exact hrev i hi
  · intro i hi
    show w' (rev' i) = i
    obtain ⟨k, hk, hget⟩ := wiring_targets_surj s ⟨hlen, halpha, hnodup⟩ i hi
    rw [← hget, hrev k (by omega), hw k (by omega), hget]

/-- The executable `plugboard_wf` check says exactly: every stored partner
is in range and the pairing is symmetric. -/
theorem plugboard_wf_spec (pb : Plugboard) : plugboard_wf pb = true ↔
    ∀ i, i < 26 → ∀ j, pb.connections i = some j →
      j < 26 ∧ pb.connections j = some i := by
  unfold plugboard_wf
  rw [List.all_eq_true]
  constructor
  · intro h i hi j hj
    have := h i (List.mem_range.mpr hi)
    rw [hj] at this
    simp only [Bool.and_eq_true, decide_eq_true_eq] at this
    exact this
  · intro h i hi
    rcases hconn : pb.connections i with _ | j
    · simp
    · have := h i (List.mem_range.mp hi) j hconn
      simp only [Bool.and_eq_true, decide_eq_true_eq]
      exact this

/-- Successful `add_connection` inverted: the letter indices, the freshness
checks and the shape of the new state. -/
theorem add_connection_inv (pb : Plugboard) (a b : Char) (pb' : Plugboard)
    (h : pb.add_connection a b = .ok pb') :
    a ≠ b ∧ ∃ ia ib, letter_to_index a = some ia ∧ letter_to_index b = some ib ∧
      pb.connections ia = none ∧ pb.connections ib = none ∧
      pb' = ⟨Function.update (Function.update pb.connections ia (some ib)) ib
        (some ia), pb.connection_count + 1⟩ := by
  unfold Plugboard.add_connection at h
  split at h
  · exact absurd h (by simp)
  rename_i hab
  rcases ha : letter_to_index a with _ | ia
  · rw [ha] at h
    exact absurd h (by simp)
  simp only [ha] at h
  rcases hb : letter_to_index b with _ | ib
  · rw [hb] at h
    exact absurd h (by simp)
  simp only [hb] at h
  split at h
  · exact absurd h (by simp)
  split at h
  · exact absurd h (by simp)
  rename_i hia hib
  simp only [Except.ok.injEq] at h
  refine ⟨hab, ia, ib, rfl, rfl, ?_, ?_, h.symm⟩
  · exact Option.not_isSome_iff_eq_none.mp hia
  · exact Option.not_isSome_iff_eq_none.mp hib

/-- `add_connection` preserves the plugboard invariant (also in the
degenerate case where both characters denote the same letter). -/
theorem add_connection_wf (pb : Plugboard) (a b : Char) (pb' : Plugboard)
    (hwf : plugboard_wf pb = true) (h : pb.add_connection a b = .ok pb') :
    plugboard_wf pb' = true := by
  rw [plugboard_wf_spec] at hwf ⊢
  obtain ⟨-, ia, ib, ha, hb, hfia, hfib, rfl⟩ := add_connection_inv pb a b pb' h
  have hia26 := letter_to_index_lt a ia ha
  have hib26 := letter_to_index_lt b ib hb
  intro i hi j hj
  replace hj : Function.update (Function.update pb.connections ia (some ib)) ib
      (some ia) i = some j := hj
  show j < 26 ∧ Function.update (Function.update pb.connections ia (some ib)) ib
      (some ia) j = some i
  by_cases hiib : i = ib
  · rw [hiib, Function.update_same] at hj
    injection hj with hj'
    subst hj'
    refine ⟨hia26, ?_⟩
    by_cases heq : ia = ib
    · rw [heq, Function.update_same, hiib]
    · rw [Function.update_noteq heq, Function.update_same, hiib]
  · rw [Function.update_noteq hiib] at hj
    by_cases hiia : i = ia
    · rw [hiia, Function.update_same] at hj
      injection hj with hj'
      subst hj'
      refine ⟨hib26, ?_⟩
      rw [Function.update_same, hiia]
    · rw [Function.update_noteq hiia] at hj
      obtain ⟨hj26, hsym⟩ := hwf i hi j hj
      refine ⟨hj26, ?_⟩
      have hjia : j ≠ ia := by
        intro hcontra
        rw [hcontra, hfia] at hsym
        cases hsym
      have hjib : j ≠ ib := by
        intro hcontra
        rw [hcontra, hfib] at hsym
        cases hsym
      rw [Function.update_noteq hjib, Function.update_noteq hjia]
      exact hsym

/-- Successful `remove_connection` inverted. -/
theorem remove_connection_inv (pb : Plugboard) (a : Char) (pb' : Plugboard)
    (h : pb.remove_connection a = .ok pb') :
    ∃ ia j, letter_to_index a = some ia ∧ pb.connections ia = some j ∧
      pb' = ⟨Function.update (Function.update pb.connections ia none) j none,
        pb.connection_count - 1⟩ := by
  unfold Plugboard.remove_connection at h
  rcases ha : letter_to_index a with _ | ia
  · rw [ha] at h
    exact absurd h (by simp)
  simp only [ha] at h
  rcases hc : pb.connections ia with _ | j
  · rw [hc] at h
    exact absurd h (by simp)
  simp only [hc, Except.ok.injEq] at h
  exact ⟨ia, j, rfl, hc, h.symm⟩

/-- `remove_connection` preserves the plugboard invariant. -/
theorem remove_connection_wf (pb : Plugboard) (a : Char) (pb' : Plugboard)
    (hwf : plugboard_wf pb = true) (h : pb.remove_connection a = .ok pb') :
    plugboard_wf pb' = true := by
  rw [plugboard_wf_spec] at hwf ⊢
  obtain ⟨ia, j2, ha, hcia, rfl⟩ := remove_connection_inv pb a pb' h
  intro i hi j hj
  replace hj : Function.update (Function.update pb.connections ia none) j2
      none i = some j := hj
  show j < 26 ∧ Function.update (Function.update pb.connections ia none) j2
      none j = some i
  by_cases hij2 : i = j2
  · subst hij2
    rw [Function.update_same] at hj
    cases hj
  · rw [Function.update_noteq hij2] at hj
    by_cases hiia : i = ia
    · subst hiia
      rw [Function.update_same] at hj
      cases hj
    · rw [Function.update_noteq hiia] at hj
      obtain ⟨hj26, hsym⟩ := hwf i hi j hj
      have hia26 := letter_to_index_lt a ia ha
      have hjia : j ≠ ia := by
        intro hcontra
        rw [hcontra] at hsym
        rw [hsym] at hcia
        injection hcia with hc2
        exact hij2 hc2
      have hjj2 : j ≠ j2 := by
        intro hcontra
        obtain ⟨-, hsym2⟩ := hwf ia hia26 j2 hcia
        rw [hcontra] at hsym
        rw [hsym] at hsym2
        injection hsym2 with hc2
        exact hiia hc2
      refine ⟨hj26, ?_⟩
      rw [Function.update_noteq hjj2, Function.update_noteq hjia]
      exact hsym

/-- `from_string_loop` preserves the plugboard invariant. -/
theorem from_string_loop_wf (tokens : List (List Char)) :
    ∀ (pb pb' : Plugboard), plugboard_wf pb = true →
    Plugboard.from_string_loop pb tokens = .ok pb' → plugboard_wf pb' = true := by
  induction tokens with
  | nil =>
      intro pb pb' hwf h
      unfold Plugboard.from_string_loop at h
      simp only [Except.ok.injEq] at h
      exact h ▸ hwf
  | cons tok rest ih =>
      intro pb pb' hwf h
      unfold Plugboard.from_string_loop at h
      rcases tok with _ | ⟨a, _ | ⟨b, _ | _⟩⟩
      · exact absurd h (by simp)
      · exact absurd h (by simp)
      case cons.cons.cons => exact absurd h (by simp)
      replace h : (if ¬ a.isAlpha = true ∨ ¬ b.isAlpha = true then
          (Except.error "Verbindung darf nur Buchstaben enthalten" :
            Except String Plugboard)
        else
          match pb.add_connection a b with
          | .error e => .error e
          | .ok pb1 => Plugboard.from_string_loop pb1 rest) = .ok pb' := h
      split at h
      · exact absurd h (by simp)
      rcases hadd : pb.add_connection a b with e | pb1
      · rw [hadd] at h
        exact absurd h (by simp)
      simp only [hadd] at h
      exact ih pb1 pb' (add_connection_wf pb a b pb1 hwf hadd) h

/-- The empty plugboard satisfies the invariant. -/
theorem plugboard_new_wf : plugboard_wf Plugboard.new = true := by decide

/-- Every reachable plugboard state satisfies the invariant: partners are
in range and the pairing is symmetric. -/
theorem reachable_wf (pb : Plugboard) (h : Reachable pb) :
    plugboard_wf pb = true := by
  induction h with
  | new => exact plugboard_new_wf
  | from_string tokens pb hok =>
      exact from_string_loop_wf tokens Plugboard.new pb plugboard_new_wf hok
  | add pb a b pb' _ hok ih => exact add_connection_wf pb a b pb' ih hok
  | remove pb a pb' _ hok ih => exact remove_connection_wf pb a pb' ih hok
  | clear pb _ _ => exact plugboard_new_wf

/-! ## Plugboard processing -/

/-- On a well-formed plugboard, `process` of an uppercase letter is the
stored partner (as a letter) or the input itself. -/
theorem process_eq (pb : Plugboard) (hwf : plugboard_wf pb = true) (c : Char)
    (hc : IsUpperLetter c) :
    pb.process c = match pb.connections (c.toNat - 65) with
      | some j => Char.ofNat (65 + j)
      | none => c := by
  rw [plugboard_wf_spec] at hwf
  unfold Plugboard.process
  rw [letter_to_index_upper c hc]
  simp only [Option.getD_some]
  rcases hconn : pb.connections (c.toNat - 65) with _ | j
  · rfl
  · have hx : c.toNat - 65 < 26 := by obtain ⟨h1, h2⟩ := hc; omega
    obtain ⟨hj26, -⟩ := hwf _ hx j hconn
    show (index_to_letter j).getD c = Char.ofNat (65 + j)
    rw [index_to_letter_lt j hj26]
    rfl

/-- `process` maps uppercase letters to uppercase letters. -/
theorem process_upper (pb : Plugboard) (hwf : plugboard_wf pb = true)
    (c : Char) (hc : IsUpperLetter c) : IsUpperLetter (pb.process c) := by
  rw [process_eq pb hwf c hc]
  rcases hconn : pb.connections (c.toNat - 65) with _ | j
  · exact hc
  · have hx : c.toNat - 65 < 26 := by obtain ⟨h1, h2⟩ := hc; omega
    rw [plugboard_wf_spec] at hwf
    obtain ⟨hj26, -⟩ := hwf _ hx j hconn
    exact ofNat_letter_upper j hj26

/-- On a well-formed plugboard, `process` is an involution on uppercase
letters. -/
theorem process_process (pb : Plugboard) (hwf : plugboard_wf pb = true)
    (c : Char) (hc : IsUpperLetter c) : pb.process (pb.process c) = c := by
  have hwf' := (plugboard_wf_spec pb).mp hwf
  have hx : c.toNat - 65 < 26 := by obtain ⟨h1, h2⟩ := hc; omega
  rw [process_eq pb hwf c hc]
  rcases hconn : pb.connections (c.toNat - 65) with _ | j
  · rw [process_eq pb hwf c hc, hconn]
  · obtain ⟨hj26, hsym⟩ := hwf' _ hx j hconn
    rw [process_eq pb hwf _ (ofNat_letter_upper j hj26)]
    rw [ofNat_letter_toNat j hj26]
    simp only [Nat.add_sub_cancel_left]
    rw [hsym]
    exact upper_ofNat_roundtrip c hc

/-! ## Reflector lemmas -/

/-- `reflect` always outputs an uppercase letter. -/
theorem reflect_upper (re : Reflector) (c : Char) :
    IsUpperLetter (re.reflect c) := by
  show IsUpperLetter
    ((index_to_letter (re.wiring ((letter_to_index c).getD 0))).getD 'A')
  by_cases h : re.wiring ((letter_to_index c).getD 0) < 26
  · rw [index_to_letter_lt _ h]
    exact ofNat_letter_upper _ h
  · unfold index_to_letter
    rw [if_neg h]
    exact ⟨by decide, by decide⟩

/-- An involutive reflector table makes `reflect` an involution on
uppercase letters. -/
theorem reflect_reflect (re : Reflector) (hre : ReflectorWF re) (c : Char)
    (hc : IsUpperLetter c) : re.reflect (re.reflect c) = c := by
  obtain ⟨hlt, hinv⟩ := hre
  unfold Reflector.reflect
  rw [letter_to_index_upper c hc]
  simp only [Option.getD_some]
  have hx : c.toNat - 65 < 26 := by obtain ⟨h1, h2⟩ := hc; omega
  have ht := hlt _ hx
  rw [index_to_letter_lt _ ht]
  simp only [Option.getD_some]
  rw [letter_to_index_ofNat _ ht]
  simp only [Option.getD_some]
  rw [hinv _ hx, index_to_letter_lt _ hx]
  simp only [Option.getD_some]
  exact upper_ofNat_roundtrip c hc

/-- `encrypt_char` steps the rotors (independently of the input) and then
applies the pure transform at the stepped state. -/
theorem encrypt_char_eq (m : EnigmaMachine) (c : Char) :
    m.encrypt_char c = (enc_map m.step_rotors c, m.step_rotors) := rfl

/-- Stepping a well-formed rotor keeps it well-formed. -/
theorem rotor_step_wf (r : Rotor) (hr : RotorWF r) : RotorWF (r.step).2 := by
  obtain ⟨hring, hpos, hw, hrev, hri, hir⟩ := hr
  exact ⟨hring, Nat.mod_lt _ (by omega), hw, hrev, hri, hir⟩

/-- A conditionally stepped rotor stays well-formed. -/
theorem rotor_step_ite_wf (b : Prop) [Decidable b] (r : Rotor) (h : RotorWF r) :
    RotorWF (if b then (r.step).2 else r) := by
  split
  · exact rotor_step_wf r h
  · exact h

/-- The middle-rotor stepping expression stays well-formed. -/
theorem rotor_middle_ite_wf (b b2 : Prop) [Decidable b] [Decidable b2]
    (r : Rotor) (h : RotorWF r) :
    RotorWF ((if b then r.step else if b2 then r.step else (false, r)).2) := by
  split
  · exact rotor_step_wf r h
  · split
    · exact rotor_step_wf r h
    · exact h

/-- Stepping the machine preserves well-formedness. -/
theorem step_rotors_wf (m : EnigmaMachine) (hwf : m.WF) : m.step_rotors.WF := by
  obtain ⟨h0, h1, h2, hre, hpb⟩ := hwf
  exact ⟨rotor_step_ite_wf _ _ h0, rotor_middle_ite_wf _ _ _ h1,
    rotor_step_wf _ h2, hre, hpb⟩

/-- The pure transform outputs uppercase letters. -/
theorem enc_map_upper (m : EnigmaMachine)
    (hpb : plugboard_wf m.plugboard = true) (c : Char) :
    IsUpperLetter (enc_map m c) :=
  process_upper _ hpb _ (rotor_backward_upper _ _)

/-- The heart of self-reciprocity: at any fixed well-formed machine state,
the per-character transform is an involution on uppercase letters. -/
theorem enc_map_invol (m : EnigmaMachine) (hwf : m.WF) (c : Char)
    (hc : IsUpperLetter c) : enc_map m (enc_map m c) = c := by
  obtain ⟨h0, h1, h2, hre, hpb⟩ := hwf
  have hu_p := process_upper _ hpb c hc
  have hu1 := rotor_forward_upper m.rotor0 (m.plugboard.process c)
  have hu2 := rotor_forward_upper m.rotor1 (m.rotor0.forward (m.plugboard.process c))
  have hu3 := rotor_forward_upper m.rotor2 (m.rotor1.forward
    (m.rotor0.forward (m.plugboard.process c)))
  have hu4 := reflect_upper m.reflector (m.rotor2.forward (m.rotor1.forward
    (m.rotor0.forward (m.plugboard.process c))))
  have hu5 := rotor_backward_upper m.rotor2 (m.reflector.reflect (m.rotor2.forward
    (m.rotor1.forward (m.rotor0.forward (m.plugboard.process c)))))
  have hu6 := rotor_backward_upper m.rotor1 (m.rotor2.backward
    (m.reflector.reflect (m.rotor2.forward (m.rotor1.forward
      (m.rotor0.forward (m.plugboard.process c))))))
  have hu7 := rotor_backward_upper m.rotor0 (m.rotor1.backward
    (m.rotor2.backward (m.reflector.reflect (m.rotor2.forward
      (m.rotor1.forward (m.rotor0.forward (m.plugboard.process c)))))))
  show enc_map m (m.plugboard.process _) = c
  unfold enc_map
  rw [process_process _ hpb _ hu7]
  rw [rotor_forward_backward _ h0 _ hu6]
  rw [rotor_forward_backward _ h1 _ hu5]
  rw [rotor_forward_backward _ h2 _ hu4]
  rw [reflect_reflect _ hre _ hu3]
  rw [rotor_backward_forward _ h2 _ hu2]
  rw [rotor_backward_forward _ h1 _ hu1]
  rw [rotor_backward_forward _ h0 _ hu_p]
  exact process_process _ hpb c hc

/-- The final state of a run is well-formed. -/
theorem enc_list_wf (cs : List Char) : ∀ m : EnigmaMachine, m.WF →
    ((enc_list m cs).2).WF := by
  induction cs with
  | nil => intro m hwf; exact hwf
  | cons c cs ih =>
      intro m hwf
      exact ih _ (step_rotors_wf m hwf)

/-- Every output character of a run is an uppercase letter. -/
theorem enc_list_upper (cs : List Char) : ∀ m : EnigmaMachine, m.WF →
    ∀ d ∈ (enc_list m cs).1, IsUpperLetter d := by
  induction cs with
  | nil => intro m _ d hd; cases hd
  | cons c cs ih =>
      intro m hwf d hd
      rcases List.mem_cons.mp hd with rfl | hd'
      · rw [encrypt_char_eq]
        exact enc_map_upper _ (step_rotors_wf m hwf).2.2.2.2 c
      · exact ih _ (step_rotors_wf m hwf) d hd'

/-- Removing the presentation spacing from the output of the
encrypt/decrypt loop gives exactly the per-character outputs, and both
compute the same final state. -/
theorem loop_clean (cs : List Char) : ∀ (m : EnigmaMachine) (i : Nat), m.WF →
    clean_text ((EnigmaMachine.process_text_loop m cs i).1) = (enc_list m cs).1 ∧
    (EnigmaMachine.process_text_loop m cs i).2 = (enc_list m cs).2 := by
  induction cs with
  | nil => intro m i _; exact ⟨rfl, rfl⟩
  | cons c cs ih =>
      intro m i hwf
      have hwf' := step_rotors_wf m hwf
      have he : IsUpperLetter ((m.encrypt_char c).1) := by
        rw [encrypt_char_eq]
        exact enc_map_upper _ hwf'.2.2.2.2 c
      obtain ⟨ih1, ih2⟩ := ih (m.encrypt_char c).2 (i + 1)
        (by rw [encrypt_char_eq]; exact hwf')
      constructor
      · show clean_text (if 0 < i ∧ i % 5 = 4 then
            (m.encrypt_char c).1 :: ' ' ::
              (EnigmaMachine.process_text_loop (m.encrypt_char c).2 cs (i + 1)).1
          else (m.encrypt_char c).1 ::
            (EnigmaMachine.process_text_loop (m.encrypt_char c).2 cs (i + 1)).1) =
          (m.encrypt_char c).1 :: (enc_list (m.encrypt_char c).2 cs).1
        split
        · rw [clean_text_upper_cons _ _ he, clean_text_space, ih1]
        · rw [clean_text_upper_cons _ _ he, ih1]
      · exact ih2

/-- Running the machine again from the same start state over its own
output returns the original input (self-reciprocity, character list
level). -/
theorem enc_list_enc_list (cs : List Char) : ∀ m : EnigmaMachine, m.WF →
    (∀ c ∈ cs, IsUpperLetter c) →
    enc_list m ((enc_list m cs).1) = (cs, (enc_list m cs).2) := by
  induction cs with
  | nil => intro m _ _; rfl
  | cons c cs ih =>
      intro m hwf hup
      have hwf' := step_rotors_wf m hwf
      have hstep : m.encrypt_char c = (enc_map m.step_rotors c, m.step_rotors) :=
        encrypt_char_eq m c
      show enc_list m ((m.encrypt_char c).1 :: (enc_list (m.encrypt_char c).2 cs).1)
        = (c :: cs, (enc_list (m.encrypt_char c).2 cs).2)
      rw [hstep]
      show ((m.encrypt_char ((enc_map m.step_rotors c))).1 ::
          (enc_list (m.encrypt_char (enc_map m.step_rotors c)).2
            ((enc_list m.step_rotors cs).1)).1,
        (enc_list (m.encrypt_char (enc_map m.step_rotors c)).2
            ((enc_list m.step_rotors cs).1)).2) =
        (c :: cs, (enc_list m.step_rotors cs).2)
      rw [encrypt_char_eq]
      rw [enc_map_invol m.step_rotors hwf' c (hup c (by simp))]
      have := ih m.step_rotors hwf' (fun d hd => hup d (by simp [hd]))
      rw [this]

theorem samePos_refl (r : Rotor) : SamePos r r := rfl

theorem samePos_trans (r r' r'' : Rotor) (h1 : SamePos r r')
    (h2 : SamePos r' r'') : SamePos r r'' := by
  unfold SamePos at *
  rw [h2, h1]

theorem samePos_ite_step (b : Prop) [Decidable b] (r : Rotor) :
    SamePos r (if b then (r.step).2 else r) := by
  split
  · rfl
  · rfl

theorem samePos_middle (b b2 : Prop) [Decidable b] [Decidable b2] (r : Rotor) :
    SamePos r ((if b then r.step else if b2 then r.step else (false, r)).2) := by
  split
  · rfl
  · split
    · rfl
    · rfl

theorem samePosM_trans (m m' m'' : EnigmaMachine) (h1 : SamePosM m m')
    (h2 : SamePosM m' m'') : SamePosM m m'' :=
  ⟨samePos_trans _ _ _ h1.1 h2.1, samePos_trans _ _ _ h1.2.1 h2.2.1,
    samePos_trans _ _ _ h1.2.2.1 h2.2.2.1, h2.2.2.2.1.trans h1.2.2.2.1,
    h2.2.2.2.2.trans h1.2.2.2.2⟩

theorem samePosM_step (m : EnigmaMachine) : SamePosM m m.step_rotors :=
  ⟨samePos_ite_step _ _, samePos_middle _ _ _, rfl, rfl, rfl⟩

theorem enc_list_samePos (cs : List Char) : ∀ m : EnigmaMachine,
    SamePosM m ((enc_list m cs).2) := by
  induction cs with
  | nil => intro m; exact ⟨samePos_refl _, samePos_refl _, samePos_refl _, rfl, rfl⟩
  | cons c cs ih =>
      intro m
      exact samePosM_trans _ _ _ (samePosM_step m) (ih m.step_rotors)

/-- Setting a rotor's position back to a well-formed original position
restores the original rotor. -/
theorem rotor_set_back (r r' : Rotor) (hr : r.position < 26)
    (hs : SamePos r r') :
    (match letter_to_index (r.get_position_char) with
      | some index => r'.set_position index
      | none => r') = r := by
  have hg : letter_to_index r.get_position_char = some r.position := by
    unfold Rotor.get_position_char
    rw [index_to_letter_lt _ hr]
    simp only [Option.getD_some]
    exact letter_to_index_ofNat _ hr
  simp only [hg]
  unfold Rotor.set_position
  rw [if_pos hr, hs]

/-- Resetting the rotor positions of a machine that differs from `m` only
in positions restores `m` itself. -/
theorem reset_positions (m m₁ : EnigmaMachine) (hwf : m.WF)
    (hs : SamePosM m m₁) :
    m₁.set_rotor_positions m.get_rotor_positions = m := by
  obtain ⟨h0, h1, h2, -, -⟩ := hwf
  obtain ⟨hs0, hs1, hs2, hsre, hspb⟩ := hs
  have hd : m₁.set_rotor_positions m.get_rotor_positions =
      EnigmaMachine.mk
        (match letter_to_index m.rotor0.get_position_char with
          | some index => m₁.rotor0.set_position index
          | none => m₁.rotor0)
        (match letter_to_index m.rotor1.get_position_char with
          | some index => m₁.rotor1.set_position index
          | none => m₁.rotor1)
        (match letter_to_index m.rotor2.get_position_char with
          | some index => m₁.rotor2.set_position index
          | none => m₁.rotor2)
        m₁.reflector m₁.plugboard := rfl
  rw [hd, rotor_set_back m.rotor0 m₁.rotor0 h0.2.1 hs0,
    rotor_set_back m.rotor1 m₁.rotor1 h1.2.1 hs1,
    rotor_set_back m.rotor2 m₁.rotor2 h2.2.1 hs2, hsre, hspb]

/-- Encrypting a text and then resetting the rotor positions to the start
positions restores the start machine exactly. -/
theorem encrypt_reset (m : EnigmaMachine) (text : List Char) (hwf : m.WF) :
    ((m.encrypt text).2).set_rotor_positions m.get_rotor_positions = m := by
  have h2 := (loop_clean (clean_text text) m 0 hwf).2
  show ((EnigmaMachine.process_text_loop m (clean_text text) 0).2).set_rotor_positions
    m.get_rotor_positions = m
  rw [h2]
  exact reset_positions m _ hwf (enc_list_samePos (clean_text text) m)

/-- C2: the engine built by the standard factory with rotors I, II, III,
positions AAA, ring settings AAA, reflector B and an empty plugboard
encrypts the single letter 'A' (one `encrypt_char` call, which steps the
rotors first) to 'Q'. -/
theorem claim_C2_single_char_vector :
    (create_standard_machine ('A', 'A', 'A') ('A', 'A', 'A') []).isOk = true ∧
    (machine_AAA.encrypt_char 'A').1 = 'Q' := by
  constructor
  · rfl
  · rfl

/-- C3: one stepping cycle follows the three-case rule: from positions
(A, E, A) — middle rotor II sitting on its notch E — one cycle yields
(B, F, B), the double-stepping anomaly; from (A, A, A) one cycle yields
(A, A, B), only the right rotor advancing. -/
theorem claim_C3_stepping :
    machine_AEA.rotor1.position = 4 ∧ machine_AEA.rotor1.notch = 4 ∧
    (machine_AEA.step_rotors).rotor0.position = 1 ∧
    (machine_AEA.step_rotors).rotor1.position = 5 ∧
    (machine_AEA.step_rotors).rotor2.position = 1 ∧
    (machine_AEA.step_rotors).get_rotor_positions = ('B', 'F', 'B') ∧
    (machine_AAA.step_rotors).rotor0.position = 0 ∧
    (machine_AAA.step_rotors).rotor1.position = 0 ∧
    (machine_AAA.step_rotors).rotor2.position = 1 ∧
    (machine_AAA.step_rotors).get_rotor_positions = ('A', 'A', 'B') := by
  refine ⟨rfl, rfl, rfl, rfl, rfl, rfl, rfl, rfl, rfl, rfl⟩

/-- C4: for every rotor successfully constructed from a 26-letter wiring
string denoting a bijection of `[0,25]`, any ring setting and position, and
every letter of the machine's uppercase alphabet, `backward` and `forward`
are mutually inverse. -/
theorem claim_C4_rotor_inverse (s : List Char) (notch : Char) (name : String)
    (ring_setting position : Nat) (r : Rotor) (hbij : DenotesBijection s)
    (hok : Rotor.new s notch name ring_setting position = .ok r)
    (c : Char) (hc : IsUpperLetter c) :
    r.backward (r.forward c) = c ∧ r.forward (r.backward c) = c :=
  have hwf := rotor_new_wf s notch name ring_setting position r hbij hok
  ⟨rotor_backward_forward r hwf c hc, rotor_forward_backward r hwf c hc⟩

/-- Witness for C4 at rotor I, ring setting 3, position 7, letter 'K'. -/
theorem claim_C4_witness :
    DenotesBijection wiring_I ∧ IsUpperLetter 'K' ∧
    (rotor_I_3_7.backward (rotor_I_3_7.forward 'K') = 'K' ∧
      rotor_I_3_7.forward (rotor_I_3_7.backward 'K') = 'K') :=
  ⟨by decide, by decide,
    claim_C4_rotor_inverse wiring_I 'Q' "I" 3 7 rotor_I_3_7 (by decide) rfl
      'K' (by decide)⟩

/-- C5 counterexample: the all-'A' wiring is not a bijection, yet
`Rotor::new` accepts it — rotor construction does not validate
bijectivity, contradicting the claim that every non-bijective table is
rejected. -/
theorem claim_C5_counterexample :
    ¬ DenotesBijection (List.replicate 26 'A') ∧
    (Rotor.new (List.replicate 26 'A') 'Q' "X" 0 0).isOk = true := by
  constructor
  · decide
  · rfl

/-- `build_tables` succeeds exactly when every wiring character is
alphabetic. -/
theorem build_tables_isOk (s : List Char) : ∀ (i : Nat) (w rev : Nat → Nat),
    (build_tables s i w rev).isOk = true ↔ ∀ c ∈ s, c.isAlpha = true := by
  induction s with
  | nil =>
      intro i w rev
      exact ⟨fun _ c hc => absurd hc (by simp), fun _ => rfl⟩
  | cons c rest ih =>
      intro i w rev
      unfold build_tables
      rcases hc : letter_to_index c with _ | t
      · have : c.isAlpha = false := by
          by_contra hcontra
          have halpha : c.isAlpha = true := by
            cases h : c.isAlpha
            · exact absurd h hcontra
            · rfl
          unfold letter_to_index at hc
          rw [if_pos halpha] at hc
          cases hc
        constructor
        · intro h
          cases h
        · intro h
          rw [h c (by simp)] at this
          cases this
      · have halpha : c.isAlpha = true := by
          by_contra hcontra
          unfold letter_to_index at hc
          rw [if_neg hcontra] at hc
          cases hc
        rw [ih (i + 1) (Function.update w i t) (Function.update rev t i)]
        constructor
        · intro h d hd
          rcases List.mem_cons.mp hd with rfl | hd'
          · exact halpha
          · exact h d hd'
        · intro h d hd
          exact h d (by simp [hd])

/-- C5 amended: rotor construction succeeds iff the wiring has length 26,
ring setting and position are below 26, the notch is a letter, and every
wiring character is alphabetic — bijectivity of the wiring is not
checked (unlike reflector construction), so a 26-letter wiring with
repeated letters is accepted. -/
theorem claim_C5_amended (s : List Char) (notch : Char) (name : String)
    (ring_setting position : Nat) :
    (Rotor.new s notch name ring_setting position).isOk = true ↔
      (s.length = 26 ∧ ring_setting < 26 ∧ position < 26 ∧
        (letter_to_index notch).isSome = true ∧ ∀ c ∈ s, c.isAlpha = true) := by
  unfold Rotor.new
  by_cases hlen : s.length ≠ 26
  · rw [if_pos hlen]
    constructor
    · intro h; cases h
    · intro h; exact absurd h.1 hlen
  rw [if_neg hlen]
  by_cases hrange : 26 ≤ ring_setting ∨ 26 ≤ position
  · rw [if_pos hrange]
    constructor
    · intro h; cases h
    · intro h
      obtain ⟨-, h1, h2, -, -⟩ := h
      exact absurd hrange (by omega)
  rw [if_neg hrange]
  rcases hn : letter_to_index notch with _ | ni
  · constructor
    · intro h; cases h
    · intro h
      cases h.2.2.2.1
  · rcases hb : build_tables s 0 (fun _ => 0) (fun _ => 0) with e | tables
    · constructor
      · intro h; cases h
      · intro h
        have := (build_tables_isOk s 0 (fun _ => 0) (fun _ => 0)).mpr h.2.2.2.2
        rw [hb] at this
        cases this
    · constructor
      · intro _
        refine ⟨by omega, by omega, by omega, rfl, ?_⟩
        exact (build_tables_isOk s 0 (fun _ => 0) (fun _ => 0)).mp
          (by rw [hb]; rfl)
      · intro _
        rfl

/-- C8: the `forward` transform computes exactly the §4.3 formula
`(wiringTable[(x + p - r + 26) mod 26] - p + r + 26) mod 26` (stated over
the integers, as the spec writes it). -/
theorem claim_C8_forward_formula (r : Rotor) (hring : r.ring_setting < 26)
    (hpos : r.position < 26) (c : Char) (x : Nat)
    (hx : letter_to_index c = some x) :
    r.forward c = (index_to_letter
      (spec_forward_index r.wiring r.position r.ring_setting x).toNat).getD 'A' := by
  have hxlt := letter_to_index_lt c x hx
  show (index_to_letter ((r.wiring (((letter_to_index c).getD 0 + r.position + 26 -
      r.ring_setting) % 26) + r.ring_setting + 26 - r.position) % 26)).getD 'A' = _
  rw [hx]
  simp only [Option.getD_some]
  unfold spec_forward_index
  have h1 : (((x : Int) + r.position - r.ring_setting + 26) % 26).toNat =
      (x + r.position + 26 - r.ring_setting) % 26 := by omega
  rw [h1]
  have h2 : ((((r.wiring ((x + r.position + 26 - r.ring_setting) % 26) : Nat) : Int) -
      r.position + r.ring_setting + 26) % 26).toNat =
      (r.wiring ((x + r.position + 26 - r.ring_setting) % 26) + r.ring_setting + 26 -
        r.position) % 26 := by omega
  rw [h2]

/-- Witness for C8 at rotor I (ring 3, position 7) and the lowercase
letter 'b' (index 1). -/
theorem claim_C8_witness :
    rotor_I_3_7.ring_setting < 26 ∧ rotor_I_3_7.position < 26 ∧
    letter_to_index 'b' = some 1 ∧
    rotor_I_3_7.forward 'b' = (index_to_letter
      (spec_forward_index rotor_I_3_7.wiring rotor_I_3_7.position
        rotor_I_3_7.ring_setting 1).toNat).getD 'A' :=
  ⟨by decide, by decide, by decide,
    claim_C8_forward_formula rotor_I_3_7 (by decide) (by decide) 'b' 1 (by decide)⟩

/-- C9: on every reachable plugboard state, `process` is an involution on
the uppercase alphabet; it returns the stored partner when one exists and
the input unchanged otherwise. -/
theorem claim_C9_process_involution (pb : Plugboard) (hr : Reachable pb)
    (c : Char) (hc : IsUpperLetter c) :
    pb.process (pb.process c) = c ∧
    (∀ j, pb.connections (c.toNat - 65) = some j →
      pb.process c = Char.ofNat (65 + j)) ∧
    (pb.connections (c.toNat - 65) = none → pb.process c = c) := by
  have hwf := reachable_wf pb hr
  refine ⟨process_process pb hwf c hc, ?_, ?_⟩
  · intro j hj
    rw [process_eq pb hwf c hc, hj]
  · intro hn
    rw [process_eq pb hwf c hc, hn]

/-- Witness for C9 on the plugboard "AB" and the letters 'A' (paired) and
'Z' (unpaired). -/
theorem claim_C9_witness :
    Reachable plugboard_AB ∧ IsUpperLetter 'A' ∧ IsUpperLetter 'Z' ∧
    plugboard_AB.process (plugboard_AB.process 'A') = 'A' ∧
    plugboard_AB.process (plugboard_AB.process 'Z') = 'Z' := by
  have hr : Reachable plugboard_AB :=
    Reachable.from_string [['A', 'B']] plugboard_AB rfl
  exact ⟨hr, by decide, by decide,
    (claim_C9_process_involution plugboard_AB hr 'A' (by decide)).1,
    (claim_C9_process_involution plugboard_AB hr 'Z' (by decide)).1⟩

/-! ## Custom-factory inversion (C6) -/

/-- A successfully built rotor carries exactly the requested name, ring
setting and position, and both settings are in range. -/
theorem rotor_new_fields (s : List Char) (notch : Char) (name : String)
    (ring_setting position : Nat) (r : Rotor)
    (h : Rotor.new s notch name ring_setting position = .ok r) :
    r.name = name ∧ r.ring_setting = ring_setting ∧ r.position = position ∧
    ring_setting < 26 ∧ position < 26 := by
  unfold Rotor.new at h
  split at h
  · cases h
  split at h
  · cases h
  rename_i hlen hrange
  split at h
  · cases h
  split at h
  · cases h
  injection h with h
  subst h
  exact ⟨rfl, rfl, rfl, by omega, by omega⟩

/-- Each named creator of the custom factory produces a rotor named after
its selector, with the requested ring setting and position. -/
theorem rotor_creator_fields (t : String)
    (creator : Nat → Nat → Except String Rotor)
    (h : rotor_creator t = .ok creator) (ring_setting position : Nat)
    (r : Rotor) (hr : creator ring_setting position = .ok r) :
    r.name = t ∧ r.ring_setting = ring_setting ∧ r.position = position ∧
    ring_setting < 26 ∧ position < 26 := by
  unfold rotor_creator at h
  split at h
  · injection h with h
    subst h
    exact rotor_new_fields _ _ _ _ _ _ hr
  · injection h with h
    subst h
    exact rotor_new_fields _ _ _ _ _ _ hr
  · injection h with h
    subst h
    exact rotor_new_fields _ _ _ _ _ _ hr
  · injection h with h
    subst h
    exact rotor_new_fields _ _ _ _ _ _ hr
  · injection h with h
    subst h
    exact rotor_new_fields _ _ _ _ _ _ hr
  · cases h

/-- Successful custom construction inverted: the three creators succeed,
and — because the source computes `ring_idx = 2 - rotors.len()` — the
rotor at stack index `i` is built from the position/ring letters at index
`2 - i`. -/
theorem create_custom_inv (t0 t1 t2 : String) (p0 p1 p2 r0 r1 r2 : Char)
    (rt : String) (plug : List (List Char)) (m : EnigmaMachine)
    (h : create_custom_machine (t0, t1, t2) (p0, p1, p2) (r0, r1, r2) rt plug
      = .ok m) :
    ∃ c0 c1 c2, rotor_creator t0 = .ok c0 ∧ rotor_creator t1 = .ok c1 ∧
      rotor_creator t2 = .ok c2 ∧
      c0 (r2.toNat - 65) (p2.toNat - 65) = .ok m.rotor0 ∧
      c1 (r1.toNat - 65) (p1.toNat - 65) = .ok m.rotor1 ∧
      c2 (r0.toNat - 65) (p0.toNat - 65) = .ok m.rotor2 := by
  unfold create_custom_machine at h
  split at h
  · cases h
  rename_i c0 hc0
  split at h
  · cases h
  rename_i rot0 hrot0
  split at h
  · cases h
  rename_i c1 hc1
  split at h
  · cases h
  rename_i rot1 hrot1
  split at h
  · cases h
  rename_i c2 hc2
  split at h
  · cases h
  rename_i rot2 hrot2
  split at h
  · cases h
  split at h
  · cases h
  injection h with h
  subst h
  exact ⟨c0, c1, c2, hc0, hc1, hc2, hrot0, hrot1, hrot2⟩

/-- A rotor whose position is the index of an uppercase letter reads back
as that letter. -/
theorem get_position_char_eq (r : Rotor) (c : Char) (hc : IsUpperLetter c)
    (hpos : r.position = c.toNat - 65) : r.get_position_char = c := by
  unfold Rotor.get_position_char
  rw [hpos, index_to_letter_lt _ (by obtain ⟨a, b⟩ := hc; omega)]
  simp only [Option.getD_some]
  exact upper_ofNat_roundtrip c hc

/-- C6 counterexample: building the custom machine with position letters
(A, B, C) succeeds, but `get_rotor_positions` afterwards returns
(C, B, A), not (A, B, C): the factory applies the position letters in
reverse order. -/
theorem claim_C6_counterexample :
    (create_custom_machine ("I", "II", "III") ('A', 'B', 'C') ('A', 'A', 'A')
      "B" []).isOk = true ∧
    custom_machine_ABC.get_rotor_positions = ('C', 'B', 'A') ∧
    custom_machine_ABC.get_rotor_positions ≠ ('A', 'B', 'C') := by
  refine ⟨rfl, rfl, ?_⟩
  decide

/-- C6 amended: for every successful custom construction with rotor-type
selectors `(t0,t1,t2)`, position letters `(p0,p1,p2)` and ring-setting
letters `(r0,r1,r2)` (uppercase), the rotor at stack index `i` has type
`ti` but position `p(2-i)` and ring setting `r(2-i)`; consequently
`get_rotor_positions` returns `(p2,p1,p0)` — the factory consumes the
position and ring letters in reverse order of the rotor types. -/
theorem claim_C6_amended (t0 t1 t2 : String) (p0 p1 p2 r0 r1 r2 : Char)
    (rt : String) (plug : List (List Char)) (m : EnigmaMachine)
    (hp0 : IsUpperLetter p0) (hp1 : IsUpperLetter p1) (hp2 : IsUpperLetter p2)
    (h : create_custom_machine (t0, t1, t2) (p0, p1, p2) (r0, r1, r2) rt plug
      = .ok m) :
    m.rotor0.name = t0 ∧ m.rotor1.name = t1 ∧ m.rotor2.name = t2 ∧
    m.rotor0.position = p2.toNat - 65 ∧ m.rotor1.position = p1.toNat - 65 ∧
    m.rotor2.position = p0.toNat - 65 ∧
    m.rotor0.ring_setting = r2.toNat - 65 ∧
    m.rotor1.ring_setting = r1.toNat - 65 ∧
    m.rotor2.ring_setting = r0.toNat - 65 ∧
    m.get_rotor_positions = (p2, p1, p0) := by
  obtain ⟨c0, c1, c2, hc0, hc1, hc2, hrot0, hrot1, hrot2⟩ :=
    create_custom_inv t0 t1 t2 p0 p1 p2 r0 r1 r2 rt plug m h
  obtain ⟨hn0, hr0, hppos0, -, -⟩ :=
    rotor_creator_fields t0 c0 hc0 _ _ m.rotor0 hrot0
  obtain ⟨hn1, hr1, hppos1, -, -⟩ :=
    rotor_creator_fields t1 c1 hc1 _ _ m.rotor1 hrot1
  obtain ⟨hn2, hr2, hppos2, -, -⟩ :=
    rotor_creator_fields t2 c2 hc2 _ _ m.rotor2 hrot2
  refine ⟨hn0, hn1, hn2, hppos0, hppos1, hppos2, hr0, hr1, hr2, ?_⟩
  unfold EnigmaMachine.get_rotor_positions
  rw [get_position_char_eq m.rotor0 p2 hp2 hppos0,
    get_position_char_eq m.rotor1 p1 hp1 hppos1,
    get_position_char_eq m.rotor2 p0 hp0 hppos2]

/-- Witness for the amended C6: rotor types (I, II, III), positions
(A, B, C), rings (D, E, F). -/
theorem claim_C6_witness :
    IsUpperLetter 'A' ∧ IsUpperLetter 'B' ∧ IsUpperLetter 'C' ∧
    (custom_machine_DEF.rotor0.name = "I" ∧
      custom_machine_DEF.rotor1.name = "II" ∧
      custom_machine_DEF.rotor2.name = "III" ∧
      custom_machine_DEF.rotor0.position = 'C'.toNat - 65 ∧
      custom_machine_DEF.rotor1.position = 'B'.toNat - 65 ∧
      custom_machine_DEF.rotor2.position = 'A'.toNat - 65 ∧
      custom_machine_DEF.rotor0.ring_setting = 'F'.toNat - 65 ∧
      custom_machine_DEF.rotor1.ring_setting = 'E'.toNat - 65 ∧
      custom_machine_DEF.rotor2.ring_setting = 'D'.toNat - 65 ∧
      custom_machine_DEF.get_rotor_positions = ('C', 'B', 'A')) :=
  ⟨by decide, by decide, by decide,
    claim_C6_amended "I" "II" "III" 'A' 'B' 'C' 'D' 'E' 'F' "B" []
      custom_machine_DEF (by decide) (by decide) (by decide) rfl⟩

/-! ## C7: plugboard pairing invariant -/

/-- C7 counterexample: 'a' and 'A' denote the same letter, yet
`add_connection 'a' 'A'` succeeds on the empty board (the `first == second`
check compares raw characters), producing a reachable state in which
letter index 0 is paired with itself. -/
theorem claim_C7_counterexample :
    letter_to_index 'a' = letter_to_index 'A' ∧ 'a' ≠ 'A' ∧
    (Plugboard.new.add_connection 'a' 'A').isOk = true ∧
    Reachable plugboard_aA ∧
    plugboard_aA.connections 0 = some 0 := by
  refine ⟨by decide, by decide, rfl, ?_, by decide⟩
  exact Reachable.add Plugboard.new 'a' 'A' plugboard_aA Reachable.new rfl

/-- C7 amended: in every reachable plugboard state the pairing is
symmetric with in-range partners (and, the representation being a single
partner array, each letter has at most one partner); `addPair` fails
whenever its two arguments are the *same character*.  But the check
compares characters, not letter indices: two distinct characters denoting
the same letter (such as 'a' and 'A') are accepted and create a self-pair,
so freedom from self-pairs holds only as long as every successful
`addPair` received characters of distinct letter indices. -/
theorem claim_C7_amended :
    (∀ pb : Plugboard, Reachable pb → ∀ i, i < 26 → ∀ j,
      pb.connections i = some j → j < 26 ∧ pb.connections j = some i) ∧
    (∀ (pb : Plugboard) (a : Char), (pb.add_connection a a).isOk = false) ∧
    (∀ (pb : Plugboard) (a b : Char) (pb' : Plugboard),
      pb.add_connection a b = .ok pb' →
      letter_to_index a ≠ letter_to_index b →
      (∀ i, pb.connections i ≠ some i) →
      (∀ i, pb'.connections i ≠ some i)) ∧
    (∀ (pb : Plugboard) (a : Char) (pb' : Plugboard),
      pb.remove_connection a = .ok pb' →
      (∀ i, pb.connections i ≠ some i) →
      (∀ i, pb'.connections i ≠ some i)) := by
  refine ⟨?_, ?_, ?_, ?_⟩
  · intro pb hr
    exact (plugboard_wf_spec pb).mp (reachable_wf pb hr)
  · intro pb a
    unfold Plugboard.add_connection
    rw [if_pos rfl]
    rfl
  · intro pb a b pb' h hab hself i
    obtain ⟨-, ia, ib, ha, hb, hfia, hfib, rfl⟩ := add_connection_inv pb a b pb' h
    have hiaib : ia ≠ ib := by
      intro hcontra
      rw [ha, hb, hcontra] at hab
      exact hab rfl
    show Function.update (Function.update pb.connections ia (some ib)) ib
      (some ia) i ≠ some i
    by_cases hib : i = ib
    · subst hib
      rw [Function.update_same]
      intro hcontra
      injection hcontra with hcontra
      exact hiaib hcontra
    · rw [Function.update_noteq hib]
      by_cases hia : i = ia
      · subst hia
        rw [Function.update_same]
        intro hcontra
        injection hcontra with hcontra
        exact hiaib hcontra.symm
      · rw [Function.update_noteq hia]
        exact hself i
  · intro pb a pb' h hself i
    obtain ⟨ia, j2, ha, hcia, rfl⟩ := remove_connection_inv pb a pb' h
    show Function.update (Function.update pb.connections ia none) j2
      none i ≠ some i
    by_cases hij2 : i = j2
    · subst hij2
      rw [Function.update_same]
      intro hcontra
      cases hcontra
    · rw [Function.update_noteq hij2]
      by_cases hia : i = ia
      · subst hia
        rw [Function.update_same]
        intro hcontra
        cases hcontra
      · rw [Function.update_noteq hia]
        exact hself i

/-- Witness for the amended C7 on the board "AB": its pairing is symmetric
(0 ↦ 1 forces 1 ↦ 0), adding ('C','C') fails, and adding ('C','D')
preserves freedom from self-pairs. -/
theorem claim_C7_witness :
    Reachable plugboard_AB ∧
    (1 < 26 ∧ plugboard_AB.connections 1 = some 0) ∧
    (plugboard_AB.add_connection 'C' 'C').isOk = false := by
  have hr : Reachable plugboard_AB :=
    Reachable.from_string [['A', 'B']] plugboard_AB rfl
  refine ⟨hr, ?_, ?_⟩
  · exact claim_C7_amended.1 plugboard_AB hr 0 (by decide) 1 rfl
  · exact claim_C7_amended.2.1 plugboard_AB 'C'

/-! ## C10: non-letter inputs -/

/-- C10: every signal-path operation is total (in this embedding each is a
plain function into `Char`), and a non-ASCII-alphabetic input is treated as
letter 'A' (index 0) before the table lookup: `letter_to_index` yields
`none` and the `unwrap_or(0)` call sites use index 0, so `forward`,
`backward`, `reflect` and `encrypt_char` return exactly what they return
for 'A'.  `process` performs its lookup at slot 0 as well: it returns A's
partner when slot 0 is paired, and — returning its input unchanged — the
non-letter itself when slot 0 is unpaired. -/
theorem claim_C10_nonletter_as_A (c : Char) (hna : c.isAlpha = false) :
    letter_to_index c = none ∧
    (∀ r : Rotor, r.forward c = r.forward 'A' ∧ r.backward c = r.backward 'A') ∧
    (∀ re : Reflector, re.reflect c = re.reflect 'A') ∧
    (∀ pb : Plugboard, plugboard_wf pb = true →
      ((pb.connections 0).isSome = true → pb.process c = pb.process 'A') ∧
      (pb.connections 0 = none → pb.process c = c)) ∧
    (∀ m : EnigmaMachine, plugboard_wf m.plugboard = true →
      m.encrypt_char c = m.encrypt_char 'A') := by
  have hnone : letter_to_index c = none := by
    unfold letter_to_index
    rw [if_neg (by simp [hna])]
  have hA : letter_to_index 'A' = some 0 := by decide
  have hgetD : (letter_to_index c).getD 0 = (letter_to_index 'A').getD 0 := by
    rw [hnone, hA]
    rfl
  have hfwd : ∀ r : Rotor, r.forward c = r.forward 'A' := by
    intro r
    show (index_to_letter ((r.wiring (((letter_to_index c).getD 0 + r.position +
        26 - r.ring_setting) % 26) + r.ring_setting + 26 - r.position) % 26)).getD 'A'
      = (index_to_letter ((r.wiring (((letter_to_index 'A').getD 0 + r.position +
        26 - r.ring_setting) % 26) + r.ring_setting + 26 - r.position) % 26)).getD 'A'
    rw [hgetD]
  have hbwd : ∀ r : Rotor, r.backward c = r.backward 'A' := by
    intro r
    show (index_to_letter ((r.reverse_wiring (((letter_to_index c).getD 0 +
        r.position + 26 - r.ring_setting) % 26) + r.ring_setting + 26 -
        r.position) % 26)).getD 'A'
      = (index_to_letter ((r.reverse_wiring (((letter_to_index 'A').getD 0 +
        r.position + 26 - r.ring_setting) % 26) + r.ring_setting + 26 -
        r.position) % 26)).getD 'A'
    rw [hgetD]
  have hrefl : ∀ re : Reflector, re.reflect c = re.reflect 'A' := by
    intro re
    show (index_to_letter (re.wiring ((letter_to_index c).getD 0))).getD 'A'
      = (index_to_letter (re.wiring ((letter_to_index 'A').getD 0))).getD 'A'
    rw [hgetD]
  have hproc : ∀ pb : Plugboard, plugboard_wf pb = true →
      ((pb.connections 0).isSome = true → pb.process c = pb.process 'A') ∧
      (pb.connections 0 = none → pb.process c = c) := by
    intro pb hwf
    constructor
    · intro hsome
      rcases hj : pb.connections 0 with _ | j
      · rw [hj] at hsome
        cases hsome
      · have hj26 : j < 26 := ((plugboard_wf_spec pb).mp hwf 0 (by omega) j hj).1
        have e1 : pb.process c = Char.ofNat (65 + j) := by
          show (match pb.connections ((letter_to_index c).getD 0) with
            | some output_index => (index_to_letter output_index).getD c
            | none => c) = Char.ofNat (65 + j)
          rw [hnone]
          show (match pb.connections 0 with
            | some output_index => (index_to_letter output_index).getD c
            | none => c) = Char.ofNat (65 + j)
          simp only [hj]
          rw [index_to_letter_lt j hj26]
          rfl
        have e2 : pb.process 'A' = Char.ofNat (65 + j) := by
          rw [process_eq pb hwf 'A' (by decide)]
          show (match pb.connections 0 with
            | some j => Char.ofNat (65 + j)
            | none => 'A') = Char.ofNat (65 + j)
          simp only [hj]
        rw [e1, e2]
    · intro hn
      show (match pb.connections ((letter_to_index c).getD 0) with
        | some output_index => (index_to_letter output_index).getD c
        | none => c) = c
      rw [hnone]
      show (match pb.connections 0 with
        | some output_index => (index_to_letter output_index).getD c
        | none => c) = c
      simp only [hn]
  refine ⟨hnone, fun r => ⟨hfwd r, hbwd r⟩, hrefl, hproc, ?_⟩
  intro m hpb
  have hpb' : plugboard_wf m.step_rotors.plugboard = true := hpb
  have key : m.step_rotors.plugboard.process c =
      m.step_rotors.plugboard.process 'A' ∨
      (m.step_rotors.plugboard.process c = c ∧
        m.step_rotors.plugboard.process 'A' = 'A') := by
    rcases hj : m.step_rotors.plugboard.connections 0 with _ | j
    · refine Or.inr ⟨(hproc _ hpb').2 hj, ?_⟩
      rw [process_eq _ hpb' 'A' (by decide)]
      show (match m.step_rotors.plugboard.connections 0 with
        | some j => Char.ofNat (65 + j)
        | none => 'A') = 'A'
      simp only [hj]
    · exact Or.inl ((hproc _ hpb').1 (by rw [hj]; rfl))
  have hencmap : enc_map m.step_rotors c = enc_map m.step_rotors 'A' := by
    unfold enc_map
    rcases key with key | ⟨k1, k2⟩
    · rw [key]
    · rw [k1, k2, hfwd]
  rw [encrypt_char_eq, encrypt_char_eq, hencmap]

/-- Witness for C10 at the non-letter '!' and the standard AAA machine. -/
theorem claim_C10_witness :
    '!'.isAlpha = false ∧ plugboard_wf machine_AAA.plugboard = true ∧
    letter_to_index '!' = none ∧
    machine_AAA.encrypt_char '!' = machine_AAA.encrypt_char 'A' :=
  ⟨by decide, by decide, (claim_C10_nonletter_as_A '!' (by decide)).1,
    (claim_C10_nonletter_as_A '!' (by decide)).2.2.2.2 machine_AAA (by decide)⟩

/-! ## C1: the round trip -/

/-- C1: encoding and decoding are the same operation, and for every
well-formed machine (mutually inverse rotor tables as produced by
construction from a bijective wiring, a B-style involutive reflector table,
a plugboard with the symmetric pairing produced by successful
construction), encrypting a text, resetting the rotor positions to the
start positions, and decrypting the ciphertext — then stripping the
block-of-5 presentation spacing with `clean_text` — returns exactly
`clean_text` of the input. -/
theorem claim_C1_self_reciprocal :
    (∀ (m : EnigmaMachine) (text : List Char), m.WF →
      clean_text ((((m.encrypt text).2.set_rotor_positions
        m.get_rotor_positions).decrypt ((m.encrypt text).1)).1) =
        clean_text text) ∧
    (∀ (m : EnigmaMachine) (text : List Char), m.encrypt text = m.decrypt text) := by
  constructor
  · intro m text hwf
    rw [encrypt_reset m text hwf]
    obtain ⟨hc1, -⟩ := loop_clean (clean_text text) m 0 hwf
    show clean_text ((EnigmaMachine.process_text_loop m
      (clean_text ((EnigmaMachine.process_text_loop m (clean_text text) 0).1))
        0).1) = clean_text text
    rw [hc1]
    obtain ⟨hd1, -⟩ := loop_clean ((enc_list m (clean_text text)).1) m 0 hwf
    rw [hd1, enc_list_enc_list (clean_text text) m hwf (clean_text_upper text)]
  · intro m text
    rfl

/-- Witness for C1: the standard machine with plugboard "AB CD EF" at AAA
and the text "HELLO WORLD". -/
theorem claim_C1_witness :
    machine_plug.WF ∧
    clean_text ((((machine_plug.encrypt "HELLO WORLD".toList).2.set_rotor_positions
      machine_plug.get_rotor_positions).decrypt
        ((machine_plug.encrypt "HELLO WORLD".toList).1)).1) =
      clean_text "HELLO WORLD".toList :=
  ⟨by decide,
    claim_C1_self_reciprocal.1 machine_plug "HELLO WORLD".toList (by decide)⟩

end Enigma
